import Mathlib

/-!
Verification of the NeuroAI-HackNation core components against their
natural-language specification.

The development shallowly embeds the two core subsystems of the repository:

* the RAG chunk loader and relevance ranker (backend/rag_utils.py:
  load_all_chunks, find_relevant_chunks), and
* the adaptive-assessment scorer (backend/profai_engine.py:
  analyze_full_assessment, _generate_learning_path, _recommend_lessons).

Python floats are modelled by the rational numbers, Python ints by Nat/Int,
Python strings by Lean strings compared code-point-wise (as Python does),
and Python dicts by insertion-ordered association lists.  Raising an
exception is modelled by returning an error value of an Except type.
-/

namespace NeuroAI

/-! ### Character and string helpers (Python string semantics) -/

/-- Python's regex word character: alphanumeric or underscore
(restricted to the character sets that actually occur in the corpus). -/
def isWordChar (c : Char) : Bool := c.isAlphanum || c = '_'

/-- Lower-case a list of characters, as Python str.lower does on the
character ranges used by the repository. -/
def lowerChars (s : List Char) : List Char := s.map Char.toLower

/-- Lower-case a string (Python str.lower). -/
def lowerStr (s : String) : String := String.mk (lowerChars s.data)

/-- Does the first list occur as a contiguous prefix of the second
(Python str.startswith at the character level)? -/
def prefixB : List Char → List Char → Bool
  | [], _ => true
  | _ :: _, [] => false
  | a :: as, b :: bs => a = b && prefixB as bs

/-- Does the first list occur contiguously inside the second
(the Python substring test x in y)? -/
def infixB : List Char → List Char → Bool
  | n, [] => n.isEmpty
  | n, h :: t => prefixB n (h :: t) || infixB n t

/-- Tokenize a character list into maximal runs of word characters,
accumulating the current (reversed) run; this is re.findall of a
word-character run pattern. -/
def tokensAux : List Char → List Char → List (List Char)
  | [], acc => if acc.isEmpty then [] else [acc.reverse]
  | c :: cs, acc =>
    if isWordChar c then tokensAux cs (c :: acc)
    else if acc.isEmpty then tokensAux cs [] else acc.reverse :: tokensAux cs []

/-- All word tokens of a character list. -/
def tokens (s : List Char) : List (List Char) := tokensAux s []

/-- The index of the first occurrence of an element in a list (the
rank position within a returned ranking). -/
def idx {α : Type} [DecidableEq α] (e : α) : List α → Nat
  | [] => 0
  | a :: l => if a = e then 0 else idx e l + 1

/-! ### The technical-phrase extractor of find_relevant_chunks

re.findall over the five hand-curated domain-phrase patterns.  Every
pattern is an alternation of literal phrases wrapped in word boundaries;
the single optional letter (networks?) is expanded greedily, so each
pattern becomes an ordered list of literal alternatives. -/

/-- The five technical patterns of find_relevant_chunks, each expanded
into its ordered list of literal alternatives. -/
def technicalPatterns : List (List String) :=
  [ ["neural networks", "neural network", "machine learning", "deep learning",
     "classification", "regression"],
    ["gradient descent", "optimization", "convex", "linear algebra", "calculus"],
    ["statistics", "probability", "bayesian", "risk", "loss function"],
    ["svm", "support vector", "boosting", "ensemble", "random forest"],
    ["clustering", "dimensionality", "feature", "supervised", "unsupervised"] ]

/-- Strip a literal from the front of a character list, returning the
remainder on success. -/
def stripLit : List Char → List Char → Option (List Char)
  | [], s => some s
  | _ :: _, [] => none
  | a :: as, b :: bs => if a = b then stripLit as bs else none

/-- Word boundary before a match position: start of text or a preceding
non-word character (all alternatives begin with a word character). -/
def boundaryBefore : Option Char → Bool
  | none => true
  | some c => !isWordChar c

/-- Word boundary after a match: end of text or a following non-word
character (all alternatives end with a word character). -/
def boundaryAfter : List Char → Bool
  | [] => true
  | c :: _ => !isWordChar c

/-- Try the alternatives of one pattern, in order, at the current
position; regex alternation takes the first literal that matches and
whose trailing word boundary holds. -/
def tryAlts (alts : List String) (s : List Char) : Option (List Char × List Char) :=
  alts.findSome? fun alt =>
    match stripLit alt.data s with
    | some rest => if boundaryAfter rest then some (alt.data, rest) else none
    | none => none

/-- Scan for non-overlapping leftmost matches of one pattern, tracking
the previous character for the leading word boundary.  The fuel
argument bounds the scan by the text length. -/
def findAllAux (alts : List String) : Nat → Option Char → List Char → List (List Char)
  | 0, _, _ => []
  | _ + 1, _, [] => []
  | fuel + 1, prev, c :: rest =>
    match (if boundaryBefore prev then tryAlts alts (c :: rest) else none) with
    | some (matched, remaining) =>
      matched :: findAllAux alts fuel matched.getLast? remaining
    | none => findAllAux alts fuel (some c) rest

/-- re.findall of one technical pattern over a text. -/
def findAllMatches (alts : List String) (s : List Char) : List (List Char) :=
  findAllAux alts (s.length + 1) none s

/-- The important_terms list of find_relevant_chunks: the matches of all
five technical patterns over the lowered query, in pattern order. -/
def importantTerms (queryLower : List Char) : List (List Char) :=
  technicalPatterns.flatMap fun alts => findAllMatches alts queryLower

/-! ### The chunk scorer of find_relevant_chunks -/

/-- The fixed key-concept list of find_relevant_chunks. -/
def keyConcepts : List String :=
  ["learning", "algorithm", "model", "training", "prediction", "error", "optimization"]

/-- word_overlap_score: the number of distinct lowered query tokens
that occur among the chunk's tokens (the size of the set
intersection). -/
def wordOverlapN (query chunk : String) : ℕ :=
  ((tokens (lowerChars query.data)).dedup).countP
    fun w => decide (w ∈ tokens (lowerChars chunk.data))

/-- phrase_bonus: 5 per extracted technical term occurring verbatim in
the lowered chunk (with multiplicity over the term list). -/
def phraseBonusN (query chunk : String) : ℕ :=
  5 * (importantTerms (lowerChars query.data)).countP
    fun t => infixB t (lowerChars chunk.data)

/-- concept_bonus: 2 per fixed key concept occurring in both the
lowered query and the lowered chunk. -/
def conceptBonusN (query chunk : String) : ℕ :=
  2 * keyConcepts.countP
    fun c => infixB c.data (lowerChars query.data) &&
      infixB c.data (lowerChars chunk.data)

/-- The integer part of the score before length normalization. -/
def rawScore (query chunk : String) : ℕ :=
  wordOverlapN query chunk + phraseBonusN query chunk + conceptBonusN query chunk

/-- length_factor: min 1 (len(chunk) / 200). -/
def lengthFactor (chunk : String) : ℚ := min 1 ((chunk.length : ℚ) / 200)

/-- The relevance score find_relevant_chunks assigns to one chunk for a
query: (word overlap + phrase bonus + concept bonus) scaled by the
length factor. -/
def scoreChunk (query chunk : String) : ℚ :=
  (rawScore query chunk : ℚ) * lengthFactor chunk

/-- A scored entry: (score, source name, chunk text), exactly the tuple
Python builds before sorting. -/
abbrev Entry := ℚ × String × String

/-- Python string comparison: strict lexicographic order on code points
(Char's order is the code-point order). -/
def charsLt : List Char → List Char → Bool
  | [], [] => false
  | [], _ :: _ => true
  | _ :: _, [] => false
  | a :: as, b :: bs => decide (a < b) || (a = b && charsLt as bs)

/-- Python tuple comparison on (score, source, text): strict
lexicographic order with numeric then string components. -/
def entryLtB (a b : Entry) : Bool :=
  decide (a.1 < b.1) ||
    (a.1 = b.1 &&
      (charsLt a.2.1.data b.2.1.data ||
        (a.2.1 = b.2.1 && charsLt a.2.2.data b.2.2.data)))

/-- The relation list.sort(reverse=True) sorts by: descending tuple
order; a stable sort under this relation is exactly Python's. -/
def entryGe (a b : Entry) : Prop := entryLtB a b = false

instance : DecidableRel entryGe := fun a b => by
  unfold entryGe; infer_instance

/-- The in-memory chunk index: source name to ordered chunk texts,
in dict insertion order. -/
abbrev ChunkIndex := List (String × List String)

/-- The positive-scoring entries of find_relevant_chunks, in corpus
iteration order. -/
def scoredChunks (query : String) (chunks : ChunkIndex) : List Entry :=
  chunks.flatMap fun fc =>
    fc.2.filterMap fun c =>
      if 0 < scoreChunk query c then some (scoreChunk query c, fc.1, c) else none

/-- The sorted entry list of find_relevant_chunks, before truncation. -/
def rankedEntries (query : String) (chunks : ChunkIndex) : List Entry :=
  List.insertionSort entryGe (scoredChunks query chunks)

/-- find_relevant_chunks of rag_utils.py: score every chunk, keep the
positive scores, sort the (score, fname, chunk) tuples in reverse, and
return the first top_k (fname, chunk) pairs. -/
def find_relevant_chunks (query : String) (chunks : ChunkIndex) (top_k : Nat) :
    List (String × String) :=
  ((rankedEntries query chunks).take top_k).map fun e => (e.2.1, e.2.2)

/-! ### The chunk loader load_all_chunks of rag_utils.py

A parsed corpus file is a JSON value.  JSON objects are modelled as
ordered key-value lists (duplicate keys, which Python's json module
collapses, are not modelled).  Python exceptions become error values. -/

/-- A parsed JSON value, as produced by json.load (numbers restricted
to the integers actually occurring in corpus files). -/
inductive Json where
  | str (s : String)
  | num (n : Int)
  | bool (b : Bool)
  | null
  | arr (elems : List Json)
  | obj (fields : List (String × Json))

/-- The exceptions the loader can raise.  corpusFormatError is the
error class named by the specification; the source never defines or
raises it, which the theorems below record. -/
inductive LoadError where
  | corpusFormatError
  | attributeError
  | keyError
  | typeError
deriving DecidableEq

/-- Python == on the hashable values used as dict keys (bool compares
equal to its integer value; values of unrelated types are unequal). -/
def keyEq : Json → Json → Bool
  | .str a, .str b => a = b
  | .num a, .num b => a = b
  | .bool a, .bool b => a = b
  | .bool a, .num n => (if a then (1 : Int) else 0) = n
  | .num n, .bool b => n = (if b then (1 : Int) else 0)
  | .null, .null => true
  | _, _ => false

/-- Is a value usable as a Python dict key (lists and dicts are
unhashable and raise TypeError)? -/
def hashable : Json → Bool
  | .arr _ => false
  | .obj _ => false
  | _ => true

/-- Python iteration over a value, as used by list.extend: arrays yield
their elements, strings their one-character substrings, dicts their
keys; everything else raises TypeError. -/
def pyIter : Json → Except LoadError (List Json)
  | .arr xs => .ok xs
  | .str s => .ok (s.data.map fun c => .str (String.mk [c]))
  | .obj kvs => .ok (kvs.map fun kv => Json.str kv.1)
  | _ => .error .typeError

/-- Python dict subscript on a JSON object (string keys): KeyError when
the key is absent. -/
def objGet (kvs : List (String × Json)) (k : String) : Except LoadError Json :=
  match kvs.find? (fun kv => kv.1 = k) with
  | some kv => .ok kv.2
  | none => .error .keyError

/-- The merged-chunk accumulator: dict from source key to the list of
collected chunk values, in insertion order. -/
abbrev ChunkAcc := List (Json × List Json)

/-- all_chunks.setdefault(fname, []).append(chunk). -/
def dictAppend : ChunkAcc → Json → Json → ChunkAcc
  | [], k, v => [(k, [v])]
  | (k', vs) :: rest, k, v =>
    if keyEq k' k then (k', vs ++ [v]) :: rest else (k', vs) :: dictAppend rest k v

/-- all_chunks.setdefault(fname, []).extend(chunk_list). -/
def dictExtend : ChunkAcc → Json → List Json → ChunkAcc
  | [], k, vs2 => [(k, vs2)]
  | (k', vs) :: rest, k, vs2 =>
    if keyEq k' k then (k', vs ++ vs2) :: rest else (k', vs) :: dictExtend rest k vs2

/-- One iteration of the list-of-records branch: fname = entry['file'];
chunk = entry['chunk']; all_chunks.setdefault(fname, []).append(chunk).
Subscripting a non-dict raises TypeError; an unhashable key raises
TypeError at the dict insertion. -/
def processEntry (acc : ChunkAcc) (entry : Json) : Except LoadError ChunkAcc :=
  match entry with
  | .obj kvs => do
    let fname ← objGet kvs "file"
    let chunk ← objGet kvs "chunk"
    if hashable fname then .ok (dictAppend acc fname chunk) else .error .typeError
  | _ => .error .typeError

/-- One iteration of the dict branch:
all_chunks.setdefault(fname, []).extend(chunk_list). -/
def processKV (a : ChunkAcc) (kv : String × Json) : Except LoadError ChunkAcc := do
  let items ← pyIter kv.2
  pure (dictExtend a (Json.str kv.1) items)

/-- Process one parsed corpus: a JSON array takes the list-of-records
branch; everything else reaches chunks.items(), which raises
AttributeError unless the value is an object. -/
def processCorpus (acc : ChunkAcc) (chunks : Json) : Except LoadError ChunkAcc :=
  match chunks with
  | .arr entries => entries.foldlM processEntry acc
  | .obj kvs => kvs.foldlM processKV acc
  | _ => .error .attributeError

/-- load_all_chunks of rag_utils.py, over already-parsed corpora: merge
every corpus into one accumulator, propagating the first exception. -/
def load_all_chunks (corpora : List Json) : Except LoadError ChunkAcc :=
  corpora.foldlM processCorpus []

/-! ### The assessment scorer analyze_full_assessment of profai_engine.py

A question record contributes only its correct and concept fields; both
are read with dict .get and may be absent.  Answer sets are maps from
string keys to submitted option letters.  Python comparing a possibly
missing answer against a possibly missing correct option is equality of
Option String values (None == None holds in Python). -/

/-- The two fields of a question the scorer consumes; absent dict keys
are none. -/
structure Question where
  correct : Option String
  concept : Option String
deriving DecidableEq

/-- An answer set: Python dict from string index keys to submitted
answers; absent keys give None. -/
abbrev AnswerSet := String → Option String

/-- The per-concept tallies, in dict insertion order:
(concept, attempted, correct). -/
abbrev PerfMap := List (String × Nat × Nat)

/-- Write concept k's tallies: increment attempted, add the correctness
indicator, appending a fresh entry when the concept is new (both the
initial-loop dict assignment and the adaptive-loop setdefault pattern
have exactly this effect). -/
def perfSet : PerfMap → String → Bool → PerfMap
  | [], k, c => [(k, 1, if c then 1 else 0)]
  | (k', a, co) :: rest, k, c =>
    if k' = k then (k', a + 1, co + if c then 1 else 0) :: rest
    else (k', a, co) :: perfSet rest k c

/-- The loop state of analyze_full_assessment. -/
structure ScoreState where
  totalCorrect : Nat
  gaps : List String
  strong : List String
  perf : PerfMap
deriving DecidableEq

/-- Python list membership of question.get('concept') (an optional
value) in a list of strings; None is never an element. -/
def optMem (c : Option String) (l : List String) : Bool :=
  match c with
  | some c => l.contains c
  | none => false

/-- One iteration of the initial-question loop (indices 0..4): the
concept is appended to strong_areas or knowledge_gaps without any
membership check. -/
def initStep (initial_answers : AnswerSet) (qs : List Question)
    (s : ScoreState) (i : Nat) : ScoreState :=
  let q := qs.getD i ⟨none, none⟩
  let correct := initial_answers (toString i) == q.correct
  { totalCorrect := s.totalCorrect + if correct then 1 else 0
    gaps := if correct then s.gaps else s.gaps ++ [q.concept.getD "unknown"]
    strong := if correct then s.strong ++ [q.concept.getD "unknown"] else s.strong
    perf := perfSet s.perf (q.concept.getD "unknown") correct }

/-- One iteration of the adaptive-question loop (indices 5..9): the
answer key is the index minus five, and the concept is appended only if
question.get('concept') is not already in the target list. -/
def adaptStep (adaptive_answers : AnswerSet) (qs : List Question)
    (s : ScoreState) (i : Nat) : ScoreState :=
  let q := qs.getD i ⟨none, none⟩
  let correct := adaptive_answers (toString (i - 5)) == q.correct
  { totalCorrect := s.totalCorrect + if correct then 1 else 0
    gaps :=
      if correct then s.gaps
      else if optMem q.concept s.gaps then s.gaps
      else s.gaps ++ [q.concept.getD "unknown"]
    strong :=
      if correct then
        if optMem q.concept s.strong then s.strong
        else s.strong ++ [q.concept.getD "unknown"]
      else s.strong
    perf := perfSet s.perf (q.concept.getD "unknown") correct }

/-- The state after both loops: the initial loop runs over
range(min(5, n)) and the adaptive loop over range(5, min(10, n)). -/
def assessState (initial_answers adaptive_answers : AnswerSet)
    (qs : List Question) : ScoreState :=
  let s1 := (List.range (min 5 qs.length)).foldl
    (initStep initial_answers qs) ⟨0, [], [], []⟩
  (List.range' 5 (min 10 qs.length - 5)).foldl (adaptStep adaptive_answers qs) s1

/-- Accuracy ratio used to sort knowledge gaps:
performance.get(x, default).get of correct over max attempted 1. -/
def accRate (perf : PerfMap) (g : String) : ℚ :=
  let entry := perf.find? fun e => e.1 = g
  ((entry.map fun e => e.2.2).getD 0 : ℚ) /
    (max ((entry.map fun e => e.2.1).getD 1) 1 : ℚ)

/-- The sort relation of sorted(gaps, key=accuracy): a stable sort by
ascending ratio. -/
def rateLe (perf : PerfMap) (g1 g2 : String) : Prop :=
  accRate perf g1 ≤ accRate perf g2

instance (perf : PerfMap) : DecidableRel (rateLe perf) := fun g1 g2 => by
  unfold rateLe; infer_instance

/-- Substring test 'fundamental' in gap.lower(). -/
def hasFundamental (g : String) : Bool :=
  infixB "fundamental".data (lowerChars g.data)

/-- The _generate_learning_path method: sort gaps by ascending accuracy;
if the exact string 'fundamentals' occurs among the lowered gaps, first
collect every gap containing 'fundamental', then extend with the sorted
gaps not already collected. -/
def generate_learning_path (gaps strengths : List String) (perf : PerfMap) :
    List String :=
  let sorted_gaps := List.insertionSort (rateLe perf) gaps
  let learning_path :=
    if (sorted_gaps.map fun g => lowerStr g).contains "fundamentals" then
      sorted_gaps.filter hasFundamental
    else []
  learning_path ++ sorted_gaps.filter fun g => !learning_path.contains g

/-- The _recommend_lessons method, as the loop that appends lessons in
order. -/
def recommend_lessons (gaps : List String) (score : ℚ) : List String :=
  let lessons : List String := []
  let lessons := if score < 3 then lessons ++ ["Fundamentals Review"] else lessons
  let lessons := gaps.foldl (fun acc g => acc ++ ["Deep Dive: " ++ g]) lessons
  if 7 < score then lessons ++ ["Advanced Applications"] else lessons

/-- The errors the scorer can raise: the source divides by zero on an
empty question list; emptyAssessmentError is the error the
specification demands there, which the source never raises. -/
inductive ScoreError where
  | zeroDivisionError
  | emptyAssessmentError
deriving DecidableEq

/-- The competency report assembled by analyze_full_assessment. -/
structure Report where
  overall_score : ℚ
  knowledge_gaps : List String
  strong_areas : List String
  concept_performance : PerfMap
  learning_path : List String
  recommended_lessons : List String
deriving DecidableEq

/-- analyze_full_assessment of profai_engine.py: run both scoring
loops, divide total correct by total questions (raising
ZeroDivisionError on an empty list), and assemble the report. -/
def analyze_full_assessment (initial_answers adaptive_answers : AnswerSet)
    (all_questions : List Question) : Except ScoreError Report :=
  if all_questions.length = 0 then .error .zeroDivisionError
  else
    let st := assessState initial_answers adaptive_answers all_questions
    let overall_score : ℚ :=
      ((st.totalCorrect : ℚ) / (all_questions.length : ℚ)) * 10
    .ok
      { overall_score := overall_score
        knowledge_gaps := st.gaps
        strong_areas := st.strong
        concept_performance := st.perf
        learning_path := generate_learning_path st.gaps st.strong st.perf
        recommended_lessons := recommend_lessons st.gaps overall_score }

/-! ### Specification-side descriptions of the scorer

These definitions restate, in compositional form, what the amended
claims say about the scorer; the theorems below prove the embedded code
equal to them. -/

/-- The answer consulted for question i: the initial answer set at key
str(i) for the first five questions, the adaptive answer set at key
str(i - 5) afterwards. -/
def answerFor (initial_answers adaptive_answers : AnswerSet) (i : Nat) :
    Option String :=
  if i < 5 then initial_answers (toString i) else adaptive_answers (toString (i - 5))

/-- Was question i answered correctly (submitted answer equal to the
question's correct option, both possibly absent)? -/
def answeredCorrectly (initial_answers adaptive_answers : AnswerSet)
    (qs : List Question) (i : Nat) : Bool :=
  answerFor initial_answers adaptive_answers i == (qs.getD i ⟨none, none⟩).correct

/-- The concept tag of question i. -/
def conceptAt (qs : List Question) (i : Nat) : Option String :=
  (qs.getD i ⟨none, none⟩).concept

/-- The number of correctly answered questions among the at most ten
questions the scorer examines. -/
def countCorrect (ia aa : AnswerSet) (qs : List Question) : Nat :=
  (List.range (min 10 qs.length)).countP (answeredCorrectly ia aa qs)

/-- Spec-side knowledge gaps: the concepts of the wrongly answered
initial questions in question order with duplicates preserved, then the
concepts of the wrongly answered adaptive questions, each appended only
when not already present. -/
def specKnowledgeGaps (ia aa : AnswerSet) (qs : List Question) : List String :=
  let initPart := ((List.range (min 5 qs.length)).filter
      (fun i => !answeredCorrectly ia aa qs i)).map
      (fun i => (conceptAt qs i).getD "unknown")
  (List.range' 5 (min 10 qs.length - 5)).foldl
    (fun acc i =>
      if answeredCorrectly ia aa qs i then acc
      else if optMem (conceptAt qs i) acc then acc
      else acc ++ [(conceptAt qs i).getD "unknown"]) initPart

/-- Spec-side strong areas: dual to specKnowledgeGaps, for correctly
answered questions. -/
def specStrongAreas (ia aa : AnswerSet) (qs : List Question) : List String :=
  let initPart := ((List.range (min 5 qs.length)).filter
      (fun i => answeredCorrectly ia aa qs i)).map
      (fun i => (conceptAt qs i).getD "unknown")
  (List.range' 5 (min 10 qs.length - 5)).foldl
    (fun acc i =>
      if answeredCorrectly ia aa qs i then
        if optMem (conceptAt qs i) acc then acc
        else acc ++ [(conceptAt qs i).getD "unknown"]
      else acc) initPart

/-- Spec-side learning path: gaps stably sorted by ascending accuracy;
when some gap lowercases exactly to the string 'fundamentals', the gaps
containing 'fundamental' come first, followed by those that do not. -/
def specLearningPath (gaps : List String) (perf : PerfMap) : List String :=
  let sorted_gaps := List.insertionSort (rateLe perf) gaps
  if (sorted_gaps.map fun g => lowerStr g).contains "fundamentals" then
    sorted_gaps.filter hasFundamental ++ sorted_gaps.filter fun g => !hasFundamental g
  else sorted_gaps

/-! ### Concrete scoring runs used as witnesses and counterexamples -/

/-- Five initial questions on concept basics, all answered correctly,
and five adaptive questions on concept advanced, all answered wrongly:
the concrete scenario of the specification. -/
def scenQs : List Question :=
  List.replicate 5 ⟨some "A", some "basics"⟩ ++
    List.replicate 5 ⟨some "A", some "advanced"⟩

def scenIA : AnswerSet := fun _ => some "A"

def scenAA : AnswerSet := fun _ => some "B"

/-- The report the source computes on the scenario: note the five
repetitions of basics in strong_areas. -/
def scenRep : Report :=
  { overall_score := 5
    knowledge_gaps := ["advanced"]
    strong_areas := ["basics", "basics", "basics", "basics", "basics"]
    concept_performance := [("basics", 5, 5), ("advanced", 5, 0)]
    learning_path := ["advanced"]
    recommended_lessons := ["Deep Dive: advanced"] }

/-- Eleven questions on one concept, with an answer set that answers
every consulted key correctly. -/
def elevenQs : List Question := List.replicate 11 ⟨some "A", some "algebra"⟩

def allA : AnswerSet := fun _ => some "A"

/-- The report on the eleven-question run: only ten questions are
examined, so the score falls short of 10 although every answer is
correct. -/
def elevenRep : Report :=
  { overall_score := 100 / 11
    knowledge_gaps := []
    strong_areas := List.replicate 5 "algebra"
    concept_performance := [("algebra", 10, 10)]
    learning_path := []
    recommended_lessons := ["Advanced Applications"] }

/-- The report on the first ten of the eleven questions. -/
def tenRep : Report :=
  { overall_score := 10
    knowledge_gaps := []
    strong_areas := List.replicate 5 "algebra"
    concept_performance := [("algebra", 10, 10)]
    learning_path := []
    recommended_lessons := ["Advanced Applications"] }

/-- A single correctly answered question. -/
def oneQs : List Question := [⟨some "A", some "algebra"⟩]

/-- The report on the single-question run. -/
def oneRep : Report :=
  { overall_score := 10
    knowledge_gaps := []
    strong_areas := ["algebra"]
    concept_performance := [("algebra", 1, 1)]
    learning_path := []
    recommended_lessons := ["Advanced Applications"] }

/-- A three-question run whose knowledge gaps contain a concept with
the substring fundamental but no gap equal to the string fundamentals:
concept fundamental topics is missed once out of two attempts, concept
advanced is missed on its only attempt. -/
def lpQs : List Question :=
  [⟨some "A", some "fundamental topics"⟩, ⟨some "A", some "fundamental topics"⟩,
    ⟨some "A", some "advanced"⟩]

def lpIA : AnswerSet := fun k => if k = "1" then some "A" else some "B"

def lpAA : AnswerSet := fun _ => none

/-- The performance map of the three-question run. -/
def lpPerf : PerfMap := [("fundamental topics", 2, 1), ("advanced", 1, 0)]

/-- The report of that run: the gap containing fundamental is sorted by
accuracy only and ends up last, not forced to the front. -/
def lpRep : Report :=
  { overall_score := 10 / 3
    knowledge_gaps := ["fundamental topics", "advanced"]
    strong_areas := ["fundamental topics"]
    concept_performance := lpPerf
    learning_path := ["advanced", "fundamental topics"]
    recommended_lessons := ["Deep Dive: fundamental topics", "Deep Dive: advanced"] }

/-- A scorer call with no answers at all. -/
def noAnswers : AnswerSet := fun _ => none

/-! ### Loop characterization lemmas for the scorer -/

theorem foldl_initStep_totalCorrect (ia : AnswerSet) (qs : List Question) :
    ∀ (l : List Nat) (s : ScoreState),
      (l.foldl (initStep ia qs) s).totalCorrect =
        s.totalCorrect +
          l.countP (fun i => ia (toString i) == (qs.getD i ⟨none, none⟩).correct)
  | [], s => by simp
  | i :: l, s => by
    rw [List.foldl_cons, foldl_initStep_totalCorrect ia qs l, List.countP_cons]
    simp only [initStep]
    split <;> omega

theorem foldl_adaptStep_totalCorrect (aa : AnswerSet) (qs : List Question) :
    ∀ (l : List Nat) (s : ScoreState),
      (l.foldl (adaptStep aa qs) s).totalCorrect =
        s.totalCorrect +
          l.countP (fun i =>
            aa (toString (i - 5)) == (qs.getD i ⟨none, none⟩).correct)
  | [], s => by simp
  | i :: l, s => by
    rw [List.foldl_cons, foldl_adaptStep_totalCorrect aa qs l, List.countP_cons]
    simp only [adaptStep]
    split <;> omega

theorem foldl_initStep_gaps (ia : AnswerSet) (qs : List Question) :
    ∀ (l : List Nat) (s : ScoreState),
      (l.foldl (initStep ia qs) s).gaps =
        s.gaps ++
          (l.filter (fun i =>
              !(ia (toString i) == (qs.getD i ⟨none, none⟩).correct))).map
            (fun i => (conceptAt qs i).getD "unknown")
  | [], s => by simp
  | i :: l, s => by
    rw [List.foldl_cons, foldl_initStep_gaps ia qs l, List.filter_cons]
    simp only [initStep, conceptAt]
    cases h : ia (toString i) == (qs.getD i ⟨none, none⟩).correct <;>
      simp [h, List.append_assoc]

theorem foldl_initStep_strong (ia : AnswerSet) (qs : List Question) :
    ∀ (l : List Nat) (s : ScoreState),
      (l.foldl (initStep ia qs) s).strong =
        s.strong ++
          (l.filter (fun i =>
              ia (toString i) == (qs.getD i ⟨none, none⟩).correct)).map
            (fun i => (conceptAt qs i).getD "unknown")
  | [], s => by simp
  | i :: l, s => by
    rw [List.foldl_cons, foldl_initStep_strong ia qs l, List.filter_cons]
    simp only [initStep, conceptAt]
    cases h : ia (toString i) == (qs.getD i ⟨none, none⟩).correct <;>
      simp [h, List.append_assoc]

theorem foldl_adaptStep_gaps (aa : AnswerSet) (qs : List Question) :
    ∀ (l : List Nat) (s : ScoreState),
      (l.foldl (adaptStep aa qs) s).gaps =
        l.foldl
          (fun acc i =>
            if aa (toString (i - 5)) == (qs.getD i ⟨none, none⟩).correct then acc
            else if optMem (conceptAt qs i) acc then acc
            else acc ++ [(conceptAt qs i).getD "unknown"]) s.gaps
  | [], _ => by simp
  | i :: l, s => by
    rw [List.foldl_cons, List.foldl_cons, foldl_adaptStep_gaps aa qs l]
    simp only [adaptStep, conceptAt]

theorem foldl_adaptStep_strong (aa : AnswerSet) (qs : List Question) :
    ∀ (l : List Nat) (s : ScoreState),
      (l.foldl (adaptStep aa qs) s).strong =
        l.foldl
          (fun acc i =>
            if aa (toString (i - 5)) == (qs.getD i ⟨none, none⟩).correct then
              if optMem (conceptAt qs i) acc then acc
              else acc ++ [(conceptAt qs i).getD "unknown"]
            else acc) s.strong
  | [], _ => by simp
  | i :: l, s => by
    rw [List.foldl_cons, List.foldl_cons, foldl_adaptStep_strong aa qs l]
    simp only [adaptStep, conceptAt]

/-- Congruence for foldl when the two step functions agree on the
elements actually folded. -/
theorem foldl_congr_fun {α β : Type} {f g : β → α → β} :
    ∀ {l : List α} {b : β}, (∀ a ∈ l, ∀ s, f s a = g s a) →
      l.foldl f b = l.foldl g b
  | [], _, _ => rfl
  | a :: l, b, h => by
    rw [List.foldl_cons, List.foldl_cons, h a (by simp)]
    exact foldl_congr_fun fun x hx s => h x (by simp [hx]) s

/-- Splitting an index range at an interior point. -/
theorem range_split (a b n : Nat) (h : n = a + b) :
    List.range n = List.range' 0 a ++ List.range' a b := by
  subst h
  rw [List.range_eq_range', Nat.add_comm a b, ← List.range'_append_1 0 a b,
    Nat.zero_add]

theorem assessState_totalCorrect (ia aa : AnswerSet) (qs : List Question) :
    (assessState ia aa qs).totalCorrect = countCorrect ia aa qs := by
  unfold assessState countCorrect
  rw [foldl_adaptStep_totalCorrect, foldl_initStep_totalCorrect]
  rw [range_split (min 5 qs.length) (min 10 qs.length - min 5 qs.length)
      (min 10 qs.length) (by omega), List.countP_append]
  have h1 : (List.range' 0 (min 5 qs.length)).countP
      (answeredCorrectly ia aa qs) =
      (List.range (min 5 qs.length)).countP
        (fun i => ia (toString i) == (qs.getD i ⟨none, none⟩).correct) := by
    rw [List.range_eq_range']
    refine List.countP_congr fun i hi => ?_
    rcases List.mem_range'.1 hi with ⟨j, hj, rfl⟩
    simp only [answeredCorrectly, answerFor]
    rw [if_pos (by omega)]
  have h2 : (List.range' (min 5 qs.length)
        (min 10 qs.length - min 5 qs.length)).countP
      (answeredCorrectly ia aa qs) =
      (List.range' 5 (min 10 qs.length - 5)).countP
        (fun i => aa (toString (i - 5)) == (qs.getD i ⟨none, none⟩).correct) := by
    rcases le_or_lt 5 qs.length with h5 | h5
    · have : min 5 qs.length = 5 := by omega
      rw [this]
      refine List.countP_congr fun i hi => ?_
      rcases List.mem_range'.1 hi with ⟨j, hj, rfl⟩
      simp only [answeredCorrectly, answerFor]
      rw [if_neg (by omega)]
    · have ha : min 10 qs.length - min 5 qs.length = 0 := by omega
      have hb : min 10 qs.length - 5 = 0 := by omega
      rw [ha, hb]
      simp
  rw [h1, h2]
  show 0 + List.countP _ _ + List.countP _ _ = _
  omega

theorem assessState_gaps (ia aa : AnswerSet) (qs : List Question) :
    (assessState ia aa qs).gaps = specKnowledgeGaps ia aa qs := by
  unfold assessState specKnowledgeGaps
  rw [foldl_adaptStep_gaps, foldl_initStep_gaps]
  have hinit : (List.range (min 5 qs.length)).filter
      (fun i => !(ia (toString i) == (qs.getD i ⟨none, none⟩).correct)) =
      (List.range (min 5 qs.length)).filter
        (fun i => !answeredCorrectly ia aa qs i) := by
    refine List.filter_congr fun i hi => ?_
    have : i < 5 := by
      have := List.mem_range.1 hi
      omega
    simp only [answeredCorrectly, answerFor, if_pos this]
  have hfold : ∀ (l : List Nat), (∀ i ∈ l, 5 ≤ i) → ∀ acc : List String,
      l.foldl (fun acc i =>
        if aa (toString (i - 5)) == (qs.getD i ⟨none, none⟩).correct then acc
        else if optMem (conceptAt qs i) acc then acc
        else acc ++ [(conceptAt qs i).getD "unknown"]) acc =
      l.foldl (fun acc i =>
        if answeredCorrectly ia aa qs i then acc
        else if optMem (conceptAt qs i) acc then acc
        else acc ++ [(conceptAt qs i).getD "unknown"]) acc := by
    intro l hl acc
    refine foldl_congr_fun fun i hi s => ?_
    have h5 : ¬ i < 5 := by
      have := hl i hi
      omega
    simp only [answeredCorrectly, answerFor, if_neg h5]
  rw [ScoreState.gaps, hinit]
  exact hfold _ (fun i hi => by
    rcases List.mem_range'.1 hi with ⟨j, _, rfl⟩
    omega) _

theorem assessState_strong (ia aa : AnswerSet) (qs : List Question) :
    (assessState ia aa qs).strong = specStrongAreas ia aa qs := by
  unfold assessState specStrongAreas
  rw [foldl_adaptStep_strong, foldl_initStep_strong]
  have hinit : (List.range (min 5 qs.length)).filter
      (fun i => ia (toString i) == (qs.getD i ⟨none, none⟩).correct) =
      (List.range (min 5 qs.length)).filter
        (fun i => answeredCorrectly ia aa qs i) := by
    refine List.filter_congr fun i hi => ?_
    have : i < 5 := by
      have := List.mem_range.1 hi
      omega
    simp only [answeredCorrectly, answerFor, if_pos this]
  have hfold : ∀ (l : List Nat), (∀ i ∈ l, 5 ≤ i) → ∀ acc : List String,
      l.foldl (fun acc i =>
        if aa (toString (i - 5)) == (qs.getD i ⟨none, none⟩).correct then
          if optMem (conceptAt qs i) acc then acc
          else acc ++ [(conceptAt qs i).getD "unknown"]
        else acc) acc =
      l.foldl (fun acc i =>
        if answeredCorrectly ia aa qs i then
          if optMem (conceptAt qs i) acc then acc
          else acc ++ [(conceptAt qs i).getD "unknown"]
        else acc) acc := by
    intro l hl acc
    refine foldl_congr_fun fun i hi s => ?_
    have h5 : ¬ i < 5 := by
      have := hl i hi
      omega
    simp only [answeredCorrectly, answerFor, if_neg h5]
  rw [ScoreState.strong, hinit]
  exact hfold _ (fun i hi => by
    rcases List.mem_range'.1 hi with ⟨j, _, rfl⟩
    omega) _

/-! ### The attempted-correct invariant of the performance map -/

theorem perfSet_bounds {m : PerfMap} (k : String) (c : Bool)
    (h : ∀ e ∈ m, e.2.2 ≤ e.2.1) : ∀ e ∈ perfSet m k c, e.2.2 ≤ e.2.1 := by
  induction m with
  | nil =>
    intro e he
    simp only [perfSet, List.mem_singleton] at he
    subst he
    cases c <;> simp
  | cons hd tl ih =>
    intro e he
    obtain ⟨k', a, co⟩ := hd
    simp only [perfSet] at he
    split at he
    · rcases List.mem_cons.1 he with rfl | htl
      · have := h (k', a, co) (by simp)
        simp only at this ⊢
        cases c <;> simp <;> omega
      · exact h _ (List.mem_cons_of_mem _ htl)
    · rcases List.mem_cons.1 he with rfl | htl
      · exact h _ (by simp)
      · exact ih (fun e' he' => h e' (List.mem_cons_of_mem _ he')) e htl

theorem foldl_initStep_perf_bounds (ia : AnswerSet) (qs : List Question) :
    ∀ (l : List Nat) (s : ScoreState),
      (∀ e ∈ s.perf, e.2.2 ≤ e.2.1) →
      ∀ e ∈ (l.foldl (initStep ia qs) s).perf, e.2.2 ≤ e.2.1
  | [], s, h => h
  | i :: l, s, h => by
    rw [List.foldl_cons]
    exact foldl_initStep_perf_bounds ia qs l _ (perfSet_bounds _ _ h)

theorem foldl_adaptStep_perf_bounds (aa : AnswerSet) (qs : List Question) :
    ∀ (l : List Nat) (s : ScoreState),
      (∀ e ∈ s.perf, e.2.2 ≤ e.2.1) →
      ∀ e ∈ (l.foldl (adaptStep aa qs) s).perf, e.2.2 ≤ e.2.1
  | [], s, h => h
  | i :: l, s, h => by
    rw [List.foldl_cons]
    exact foldl_adaptStep_perf_bounds aa qs l _ (perfSet_bounds _ _ h)

theorem assessState_perf_bounds (ia aa : AnswerSet) (qs : List Question) :
    ∀ e ∈ (assessState ia aa qs).perf, e.2.2 ≤ e.2.1 := by
  unfold assessState
  exact foldl_adaptStep_perf_bounds aa qs _ _
    (foldl_initStep_perf_bounds ia qs _ _ (by simp))

/-! ### Unpacking a successful scoring run -/

theorem report_of_ok {ia aa : AnswerSet} {qs : List Question} {rep : Report}
    (h : analyze_full_assessment ia aa qs = .ok rep) :
    qs.length ≠ 0 ∧
    rep.overall_score =
      ((assessState ia aa qs).totalCorrect : ℚ) / (qs.length : ℚ) * 10 ∧
    rep.knowledge_gaps = (assessState ia aa qs).gaps ∧
    rep.strong_areas = (assessState ia aa qs).strong ∧
    rep.concept_performance = (assessState ia aa qs).perf ∧
    rep.learning_path = generate_learning_path (assessState ia aa qs).gaps
      (assessState ia aa qs).strong (assessState ia aa qs).perf ∧
    rep.recommended_lessons = recommend_lessons (assessState ia aa qs).gaps
      (((assessState ia aa qs).totalCorrect : ℚ) / (qs.length : ℚ) * 10) := by
  unfold analyze_full_assessment at h
  by_cases h0 : qs.length = 0
  · rw [if_pos h0] at h
    exact absurd h (by simp)
  · rw [if_neg h0] at h
    cases Except.ok.inj h
    exact ⟨h0, rfl, rfl, rfl, rfl, rfl, rfl⟩

/-! ### The learning-path and lesson recommendation rules -/

instance (perf : PerfMap) : IsTotal String (rateLe perf) :=
  ⟨fun a b => le_total (accRate perf a) (accRate perf b)⟩

instance (perf : PerfMap) : IsTrans String (rateLe perf) :=
  ⟨fun _ _ _ h1 h2 => le_trans h1 h2⟩

theorem generate_learning_path_eq (gaps strengths : List String) (perf : PerfMap) :
    generate_learning_path gaps strengths perf = specLearningPath gaps perf := by
  simp only [generate_learning_path, specLearningPath]
  by_cases htr : ((List.insertionSort (rateLe perf) gaps).map fun g =>
      lowerStr g).contains "fundamentals" = true
  · rw [if_pos htr, if_pos htr]
    congr 1
    refine List.filter_congr fun g hg => ?_
    by_cases hf : hasFundamental g = true
    · have hmem : g ∈ (List.insertionSort (rateLe perf) gaps).filter hasFundamental :=
        List.mem_filter.2 ⟨hg, hf⟩
      simp [hf, List.elem_iff.2 hmem] <;>
        exact (List.perm_insertionSort (rateLe perf) gaps).mem_iff.1 hg
    · have hmem : g ∉ (List.insertionSort (rateLe perf) gaps).filter hasFundamental := by
        intro hc
        exact hf (List.mem_filter.1 hc).2
      simp only [Bool.not_eq_true] at hf
      simp [hf, List.elem_eq_mem, hmem]
  · rw [if_neg htr, if_neg htr]
    simp

theorem recommend_lessons_eq (gaps : List String) (score : ℚ) :
    recommend_lessons gaps score =
      (if score < 3 then ["Fundamentals Review"] else []) ++
        gaps.map (fun g => "Deep Dive: " ++ g) ++
        (if 7 < score then ["Advanced Applications"] else []) := by
  simp only [recommend_lessons]
  have hfold : ∀ (l acc : List String),
      l.foldl (fun acc g => acc ++ ["Deep Dive: " ++ g]) acc =
        acc ++ l.map (fun g => "Deep Dive: " ++ g) := by
    intro l
    induction l with
    | nil => simp
    | cons g l ih => intro acc; simp [ih, List.append_assoc]
  rw [hfold]
  by_cases h3 : score < 3 <;> by_cases h7 : 7 < score <;>
    simp [h3, h7, List.append_assoc]

/-- Evaluation helper: a scoring run is determined by its decidable
loop state together with rational-arithmetic facts about the score. -/
theorem analyze_eval (ia aa : AnswerSet) (qs : List Question) (st : ScoreState)
    (n : ℕ) (sc : ℚ) (lp lessons : List String)
    (hst : assessState ia aa qs = st)
    (hn : qs.length = n) (h0 : n ≠ 0)
    (hsc : (st.totalCorrect : ℚ) / (n : ℚ) * 10 = sc)
    (hlp : generate_learning_path st.gaps st.strong st.perf = lp)
    (hles : recommend_lessons st.gaps sc = lessons) :
    analyze_full_assessment ia aa qs =
      .ok ⟨sc, st.gaps, st.strong, st.perf, lp, lessons⟩ := by
  simp only [analyze_full_assessment, hn, hst, if_neg h0, hsc, hlp, hles]

/-! ### Evaluating the concrete runs -/

theorem scen_run : analyze_full_assessment scenIA scenAA scenQs = .ok scenRep :=
  analyze_eval scenIA scenAA scenQs
    ⟨5, ["advanced"], ["basics", "basics", "basics", "basics", "basics"],
      [("basics", 5, 5), ("advanced", 5, 0)]⟩
    10 5 ["advanced"] ["Deep Dive: advanced"]
    (by decide) (by decide) (by norm_num) (by norm_num) (by decide)
    (by rw [recommend_lessons_eq]; norm_num; try (first | rfl | constructor <;> rfl))

theorem eleven_run : analyze_full_assessment allA allA elevenQs = .ok elevenRep :=
  analyze_eval allA allA elevenQs
    ⟨10, [], List.replicate 5 "algebra", [("algebra", 10, 10)]⟩
    11 (100 / 11) [] ["Advanced Applications"]
    (by decide) (by decide) (by norm_num) (by norm_num) (by decide)
    (by rw [recommend_lessons_eq]; norm_num; try (first | rfl | constructor <;> rfl))

theorem ten_run : analyze_full_assessment allA allA (elevenQs.take 10) = .ok tenRep :=
  analyze_eval allA allA (elevenQs.take 10)
    ⟨10, [], List.replicate 5 "algebra", [("algebra", 10, 10)]⟩
    10 10 [] ["Advanced Applications"]
    (by decide) (by decide) (by norm_num) (by norm_num) (by decide)
    (by rw [recommend_lessons_eq]; norm_num; try (first | rfl | constructor <;> rfl))

theorem one_run : analyze_full_assessment allA allA oneQs = .ok oneRep :=
  analyze_eval allA allA oneQs
    ⟨1, [], ["algebra"], [("algebra", 1, 1)]⟩
    1 10 [] ["Advanced Applications"]
    (by decide) (by decide) (by norm_num) (by norm_num) (by decide)
    (by rw [recommend_lessons_eq]; norm_num; try (first | rfl | constructor <;> rfl))

theorem lp_accRate_ft : accRate lpPerf "fundamental topics" = 1 / 2 := by
  unfold accRate
  rw [show lpPerf.find? (fun e => decide (e.1 = "fundamental topics")) =
    some ("fundamental topics", 2, 1) from by decide]
  show ((1 : ℕ) : ℚ) / ((max 2 1 : ℕ) : ℚ) = 1 / 2
  norm_num

theorem lp_accRate_adv : accRate lpPerf "advanced" = 0 := by
  unfold accRate
  rw [show lpPerf.find? (fun e => decide (e.1 = "advanced")) =
    some ("advanced", 1, 0) from by decide]
  show ((0 : ℕ) : ℚ) / ((max 1 1 : ℕ) : ℚ) = 0
  norm_num

theorem lp_sort_eval :
    List.insertionSort (rateLe lpPerf) ["fundamental topics", "advanced"] =
      ["advanced", "fundamental topics"] := by
  show List.orderedInsert _ "fundamental topics"
    (List.orderedInsert _ "advanced" []) = _
  rw [List.orderedInsert_nil]
  show (if rateLe lpPerf "fundamental topics" "advanced" then _ else _) = _
  rw [if_neg]
  · rw [List.orderedInsert_nil]
  · unfold rateLe
    rw [lp_accRate_ft, lp_accRate_adv]
    norm_num

theorem lp_glp_eval :
    generate_learning_path ["fundamental topics", "advanced"]
      ["fundamental topics"] lpPerf = ["advanced", "fundamental topics"] := by
  simp only [generate_learning_path, lp_sort_eval]
  decide

theorem lp_run : analyze_full_assessment lpIA lpAA lpQs = .ok lpRep :=
  analyze_eval lpIA lpAA lpQs
    ⟨1, ["fundamental topics", "advanced"], ["fundamental topics"], lpPerf⟩
    3 (10 / 3) ["advanced", "fundamental topics"]
    ["Deep Dive: fundamental topics", "Deep Dive: advanced"]
    (by decide) (by decide) (by norm_num) (by norm_num) lp_glp_eval
    (by rw [recommend_lessons_eq]; norm_num; try (first | rfl | constructor <;> rfl))

/-! ### Claim C1 -/


/-- C1: with zero questions the source scorer raises ZeroDivisionError
at the overall_score division; the EmptyAssessmentError demanded by the
specification does not exist in the code, so the division is reached
unguarded.  This theorem evaluates the code at the failing input. -/
theorem c1_zero_questions_zero_division :
    analyze_full_assessment noAnswers noAnswers [] =
      .error .zeroDivisionError ∧
    ScoreError.zeroDivisionError ≠ ScoreError.emptyAssessmentError :=
  ⟨rfl, by decide⟩

/-! ### Claim C2 -/

/-- C2 (amended): for a run with at least one and at most ten questions,
all answered, overall_score equals 10 times the correct count over the
question count, lies in the interval from 0 to 10, is 10 exactly when
every answer is correct and 0 exactly when every answer is wrong.  (With
more than ten questions the scorer only examines the first ten, so the
claim as stated fails; see the counterexample.) -/
theorem c2_scorer_totals (ia aa : AnswerSet) (qs : List Question) (rep : Report)
    (h1 : 1 ≤ qs.length) (h2 : qs.length ≤ 10)
    (hans : ∀ i < qs.length, answerFor ia aa i ≠ none)
    (hok : analyze_full_assessment ia aa qs = .ok rep) :
    rep.overall_score = 10 * (countCorrect ia aa qs : ℚ) / (qs.length : ℚ) ∧
    0 ≤ rep.overall_score ∧ rep.overall_score ≤ 10 ∧
    (rep.overall_score = 10 ↔
      ∀ i < qs.length, answeredCorrectly ia aa qs i = true) ∧
    (rep.overall_score = 0 ↔
      ∀ i < qs.length, answeredCorrectly ia aa qs i = false) := by
  obtain ⟨h0, ho, -⟩ := report_of_ok hok
  rw [assessState_totalCorrect] at ho
  have hnQ : (0 : ℚ) < (qs.length : ℚ) := by
    exact_mod_cast Nat.pos_of_ne_zero h0
  have hcLe : countCorrect ia aa qs ≤ qs.length := by
    unfold countCorrect
    calc (List.range (min 10 qs.length)).countP (answeredCorrectly ia aa qs)
        ≤ (List.range (min 10 qs.length)).length := List.countP_le_length _
      _ ≤ qs.length := by
          rw [List.length_range]
          omega
  have hcount : (List.range qs.length).countP (answeredCorrectly ia aa qs) =
      countCorrect ia aa qs := by
    unfold countCorrect
    rw [show min 10 qs.length = qs.length from by omega]
  refine ⟨by rw [ho]; ring, by rw [ho]; positivity, ?_, ?_, ?_⟩
  · rw [ho]
    have h1' : ((countCorrect ia aa qs : ℚ)) ≤ (qs.length : ℚ) := by
      exact_mod_cast hcLe
    have hdiv : (countCorrect ia aa qs : ℚ) / (qs.length : ℚ) ≤ 1 :=
      div_le_one_of_le₀ h1' (le_of_lt hnQ)
    nlinarith
  · rw [ho]
    have hiff : ((countCorrect ia aa qs : ℚ) / (qs.length : ℚ) * 10 = 10) ↔
        countCorrect ia aa qs = qs.length := by
      rw [div_mul_eq_mul_div, div_eq_iff (ne_of_gt hnQ)]
      constructor
      · intro h
        have h' : (countCorrect ia aa qs : ℚ) = (qs.length : ℚ) := by linarith
        exact_mod_cast h'
      · intro h
        rw [h]
        ring
    rw [hiff, ← hcount]
    constructor
    · intro h i hi
      exact List.countP_eq_length.1
        (by rw [List.length_range]; exact h) i (List.mem_range.2 hi)
    · intro h
      exact (List.countP_eq_length.2 fun i hi =>
        h i (List.mem_range.1 hi)).trans (List.length_range _)
  · rw [ho]
    have hiff : ((countCorrect ia aa qs : ℚ) / (qs.length : ℚ) * 10 = 0) ↔
        countCorrect ia aa qs = 0 := by
      constructor
      · intro h
        rcases mul_eq_zero.1 h with h | h
        · rcases div_eq_zero_iff.1 h with h | h
          · exact_mod_cast h
          · exact absurd h (ne_of_gt hnQ)
        · exact absurd h (by norm_num)
      · intro h
        rw [h]
        norm_num
    rw [hiff, ← hcount, List.countP_eq_zero]
    constructor
    · intro h i hi
      have := h i (List.mem_range.2 hi)
      simpa using this
    · intro h i hi
      simp [h i (List.mem_range.1 hi)]

/-- Witness for c2_scorer_totals: one question, answered correctly. -/
theorem c2_scorer_totals_witness :
    (1 ≤ oneQs.length ∧ oneQs.length ≤ 10 ∧
      (∀ i < oneQs.length, answerFor allA allA i ≠ none) ∧
      analyze_full_assessment allA allA oneQs = .ok oneRep) ∧
    (oneRep.overall_score =
        10 * (countCorrect allA allA oneQs : ℚ) / (oneQs.length : ℚ) ∧
      0 ≤ oneRep.overall_score ∧ oneRep.overall_score ≤ 10 ∧
      (oneRep.overall_score = 10 ↔
        ∀ i < oneQs.length, answeredCorrectly allA allA oneQs i = true) ∧
      (oneRep.overall_score = 0 ↔
        ∀ i < oneQs.length, answeredCorrectly allA allA oneQs i = false)) :=
  ⟨⟨by decide, by decide, by decide, one_run⟩,
    c2_scorer_totals allA allA oneQs oneRep (by decide) (by decide)
      (by decide) one_run⟩

/-- C2 is false as stated: on eleven questions, all answered correctly,
the scorer only credits the first ten, so the score is 100/11 rather
than 10. -/
theorem c2_counterexample :
    analyze_full_assessment allA allA elevenQs = .ok elevenRep ∧
    (∀ i < 11, answeredCorrectly allA allA elevenQs i = true) ∧
    elevenQs.length = 11 ∧
    elevenRep.overall_score = 100 / 11 ∧
    (100 / 11 : ℚ) ≠ 10 :=
  ⟨eleven_run, by decide, by decide, rfl, by norm_num⟩

/-! ### Claim C3 -/

/-- C3 (amended): knowledge_gaps collects the concept of every wrongly
answered initial question in question order with duplicates preserved,
then adds adaptive-batch concepts only when not already present;
strong_areas does the same for correct answers.  (The first-occurrence
dedup claimed for the whole run only happens in the adaptive batch, so
the scenario yields five copies of basics; see the counterexample.) -/
theorem c3_gaps_strong_characterization (ia aa : AnswerSet)
    (qs : List Question) (rep : Report)
    (hok : analyze_full_assessment ia aa qs = .ok rep) :
    rep.knowledge_gaps = specKnowledgeGaps ia aa qs ∧
    rep.strong_areas = specStrongAreas ia aa qs := by
  obtain ⟨-, -, hg, hs, -⟩ := report_of_ok hok
  exact ⟨hg.trans (assessState_gaps ia aa qs),
    hs.trans (assessState_strong ia aa qs)⟩

/-- Witness for c3_gaps_strong_characterization on the concrete
scenario run. -/
theorem c3_gaps_strong_characterization_witness :
    analyze_full_assessment scenIA scenAA scenQs = .ok scenRep ∧
    (scenRep.knowledge_gaps = specKnowledgeGaps scenIA scenAA scenQs ∧
      scenRep.strong_areas = specStrongAreas scenIA scenAA scenQs) :=
  ⟨scen_run, c3_gaps_strong_characterization scenIA scenAA scenQs scenRep scen_run⟩

/-- C3 is false as stated: in the concrete scenario the initial loop
appends basics once per correct answer, so strong_areas has five
entries, not one. -/
theorem c3_counterexample :
    analyze_full_assessment scenIA scenAA scenQs = .ok scenRep ∧
    scenRep.knowledge_gaps = ["advanced"] ∧
    scenRep.strong_areas = ["basics", "basics", "basics", "basics", "basics"] ∧
    scenRep.strong_areas ≠ ["basics"] :=
  ⟨scen_run, rfl, rfl, by decide⟩

/-! ### Claim C5 -/

/-- C5 (amended): learning_path is knowledge_gaps stably sorted by
ascending accuracy ratio; the concepts containing the substring
fundamental are moved to the front only when some gap lowercases to
exactly the string fundamentals.  (With a gap like fundamental topics
and no gap equal to fundamentals, nothing is moved; see the
counterexample.) -/
theorem c5_learning_path_rule (ia aa : AnswerSet) (qs : List Question)
    (rep : Report) (hok : analyze_full_assessment ia aa qs = .ok rep) :
    rep.learning_path =
      specLearningPath rep.knowledge_gaps rep.concept_performance ∧
    (List.insertionSort (rateLe rep.concept_performance)
        rep.knowledge_gaps).Sorted (rateLe rep.concept_performance) ∧
    (List.insertionSort (rateLe rep.concept_performance)
        rep.knowledge_gaps).Perm rep.knowledge_gaps := by
  obtain ⟨-, -, hg, -, hp, hl, -⟩ := report_of_ok hok
  refine ⟨?_, List.sorted_insertionSort _ _, List.perm_insertionSort _ _⟩
  rw [hl, hg, hp]
  exact generate_learning_path_eq _ _ _

/-- Witness for c5_learning_path_rule on the three-question run. -/
theorem c5_learning_path_rule_witness :
    analyze_full_assessment lpIA lpAA lpQs = .ok lpRep ∧
    (lpRep.learning_path =
        specLearningPath lpRep.knowledge_gaps lpRep.concept_performance ∧
      (List.insertionSort (rateLe lpRep.concept_performance)
          lpRep.knowledge_gaps).Sorted (rateLe lpRep.concept_performance) ∧
      (List.insertionSort (rateLe lpRep.concept_performance)
          lpRep.knowledge_gaps).Perm lpRep.knowledge_gaps) :=
  ⟨lp_run, c5_learning_path_rule lpIA lpAA lpQs lpRep lp_run⟩

/-- C5 is false as stated: the gap fundamental topics contains the
substring fundamental but is not moved to the front of the learning
path, because no gap equals the exact string fundamentals. -/
theorem c5_counterexample :
    analyze_full_assessment lpIA lpAA lpQs = .ok lpRep ∧
    hasFundamental "fundamental topics" = true ∧
    lpRep.knowledge_gaps = ["fundamental topics", "advanced"] ∧
    lpRep.learning_path = ["advanced", "fundamental topics"] ∧
    lpRep.learning_path ≠ ["fundamental topics", "advanced"] :=
  ⟨lp_run, by decide, rfl, rfl, by decide⟩

/-! ### Claim C8 -/

/-- C8: recommended_lessons is Fundamentals Review when the score is
below 3, then one Deep Dive entry per knowledge gap in order, then
Advanced Applications when the score exceeds 7. -/
theorem c8_recommended_lessons_rule (ia aa : AnswerSet) (qs : List Question)
    (rep : Report) (hok : analyze_full_assessment ia aa qs = .ok rep) :
    rep.recommended_lessons =
      (if rep.overall_score < 3 then ["Fundamentals Review"] else []) ++
        rep.knowledge_gaps.map (fun g => "Deep Dive: " ++ g) ++
        (if 7 < rep.overall_score then ["Advanced Applications"] else []) := by
  obtain ⟨-, ho, hg, -, -, -, hr⟩ := report_of_ok hok
  rw [hr, recommend_lessons_eq, ← ho, ← hg]

/-- Witness for c8_recommended_lessons_rule on the scenario run. -/
theorem c8_recommended_lessons_rule_witness :
    analyze_full_assessment scenIA scenAA scenQs = .ok scenRep ∧
    scenRep.recommended_lessons =
      (if scenRep.overall_score < 3 then ["Fundamentals Review"] else []) ++
        scenRep.knowledge_gaps.map (fun g => "Deep Dive: " ++ g) ++
        (if 7 < scenRep.overall_score then ["Advanced Applications"] else []) :=
  ⟨scen_run, c8_recommended_lessons_rule scenIA scenAA scenQs scenRep scen_run⟩

/-! ### Claim C9 -/

/-- C9: every ConceptPerformance entry of a scoring run satisfies
attempted at least correct at least zero. -/
theorem c9_perf_attempted_ge_correct (ia aa : AnswerSet) (qs : List Question)
    (rep : Report) (hok : analyze_full_assessment ia aa qs = .ok rep) :
    ∀ e ∈ rep.concept_performance, e.2.2 ≤ e.2.1 ∧ 0 ≤ e.2.2 := by
  obtain ⟨-, -, -, -, hp, -⟩ := report_of_ok hok
  intro e he
  exact ⟨assessState_perf_bounds ia aa qs e (hp ▸ he), Nat.zero_le _⟩

/-- Witness for c9_perf_attempted_ge_correct on the scenario run. -/
theorem c9_perf_attempted_ge_correct_witness :
    analyze_full_assessment scenIA scenAA scenQs = .ok scenRep ∧
    ∀ e ∈ scenRep.concept_performance, e.2.2 ≤ e.2.1 ∧ 0 ≤ e.2.2 :=
  ⟨scen_run, c9_perf_attempted_ge_correct scenIA scenAA scenQs scenRep scen_run⟩

/-! ### Claim C10 -/

/-- C10: with more than ten questions, the scorer's gaps, strong areas,
concept performance and learning path agree with those of the
first-ten-only run; only the overall_score denominator sees the full
question count, the numerator being the correct count of the first ten
questions; and the answer sets are consulted only at the string keys 0
through 4, so replacing them by answer sets agreeing on those keys
leaves the result unchanged. -/
theorem c10_tail_questions_only_denominator
    (ia aa ia' aa' : AnswerSet) (qs : List Question) (rep rep10 : Report)
    (hlen : 10 < qs.length)
    (hok : analyze_full_assessment ia aa qs = .ok rep)
    (hok10 : analyze_full_assessment ia aa (qs.take 10) = .ok rep10)
    (hia : ∀ j < 5, ia (toString j) = ia' (toString j))
    (haa : ∀ j < 5, aa (toString j) = aa' (toString j)) :
    rep.knowledge_gaps = rep10.knowledge_gaps ∧
    rep.strong_areas = rep10.strong_areas ∧
    rep.concept_performance = rep10.concept_performance ∧
    rep.learning_path = rep10.learning_path ∧
    rep.overall_score =
      (countCorrect ia aa (qs.take 10) : ℚ) / (qs.length : ℚ) * 10 ∧
    analyze_full_assessment ia aa qs = analyze_full_assessment ia' aa' qs := by
  have htake : ∀ i, i < 10 →
      (qs.take 10).getD i ⟨none, none⟩ = qs.getD i ⟨none, none⟩ := by
    intro i hi
    rw [List.getD_eq_getElem?_getD, List.getD_eq_getElem?_getD,
      List.getElem?_take_of_lt hi]
  have hstate : assessState ia aa qs = assessState ia aa (qs.take 10) := by
    unfold assessState
    have hlen10 : (qs.take 10).length = 10 := by
      rw [List.length_take]
      omega
    rw [show min 5 qs.length = 5 from by omega,
      show min 10 qs.length = 10 from by omega, hlen10]
    have hcong1 : (List.range 5).foldl (initStep ia qs) ⟨0, [], [], []⟩ =
        (List.range 5).foldl (initStep ia (qs.take 10)) ⟨0, [], [], []⟩ :=
      foldl_congr_fun fun i hi s => by
        have hi10 : i < 10 := by
          have := List.mem_range.1 hi
          omega
        unfold initStep
        rw [htake i hi10]
    rw [hcong1]
    refine foldl_congr_fun fun i hi s => ?_
    rcases List.mem_range'.1 hi with ⟨j, hj, rfl⟩
    have hi10 : 5 + 1 * j < 10 := by omega
    unfold adaptStep
    rw [htake _ hi10]
  have hstate2 : assessState ia aa qs = assessState ia' aa' qs := by
    unfold assessState
    have hcong2 : (List.range (min 5 qs.length)).foldl (initStep ia qs)
        ⟨0, [], [], []⟩ =
        (List.range (min 5 qs.length)).foldl (initStep ia' qs) ⟨0, [], [], []⟩ :=
      foldl_congr_fun fun i hi s => by
        have hi5 : i < 5 := by
          have := List.mem_range.1 hi
          omega
        unfold initStep
        rw [hia i hi5]
    rw [hcong2]
    refine foldl_congr_fun fun i hi s => ?_
    rcases List.mem_range'.1 hi with ⟨j, hj, rfl⟩
    have hj5 : 5 + 1 * j - 5 < 5 := by omega
    unfold adaptStep
    rw [haa _ hj5]
  obtain ⟨h0, ho, hg, hs, hp, hl, -⟩ := report_of_ok hok
  obtain ⟨h0', ho', hg', hs', hp', hl', -⟩ := report_of_ok hok10
  refine ⟨?_, ?_, ?_, ?_, ?_, ?_⟩
  · rw [hg, hg', hstate]
  · rw [hs, hs', hstate]
  · rw [hp, hp', hstate]
  · rw [hl, hl', hstate]
  · rw [ho, hstate, assessState_totalCorrect]
  · unfold analyze_full_assessment
    rw [hstate2]

/-- Witness for c10_tail_questions_only_denominator: the eleven-question
run against its ten-question truncation, with identical answer sets. -/
theorem c10_tail_questions_only_denominator_witness :
    (10 < elevenQs.length ∧
      analyze_full_assessment allA allA elevenQs = .ok elevenRep ∧
      analyze_full_assessment allA allA (elevenQs.take 10) = .ok tenRep ∧
      (∀ j < 5, allA (toString j) = allA (toString j))) ∧
    (elevenRep.knowledge_gaps = tenRep.knowledge_gaps ∧
      elevenRep.strong_areas = tenRep.strong_areas ∧
      elevenRep.concept_performance = tenRep.concept_performance ∧
      elevenRep.learning_path = tenRep.learning_path ∧
      elevenRep.overall_score =
        (countCorrect allA allA (elevenQs.take 10) : ℚ) /
          (elevenQs.length : ℚ) * 10 ∧
      analyze_full_assessment allA allA elevenQs =
        analyze_full_assessment allA allA elevenQs) :=
  ⟨⟨by decide, eleven_run, ten_run, fun j _ => rfl⟩,
    c10_tail_questions_only_denominator allA allA allA allA elevenQs
      elevenRep tenRep (by decide) eleven_run ten_run
      (fun j _ => rfl) (fun j _ => rfl)⟩

/-! ### Claim C6: the chunk loader's failure behavior -/

theorem objGet_error {kvs : List (String × Json)} {k : String} {e : LoadError}
    (h : objGet kvs k = .error e) : e = .keyError := by
  unfold objGet at h
  split at h
  · exact absurd h (by simp)
  · cases h
    rfl

theorem pyIter_error {v : Json} {e : LoadError} (h : pyIter v = .error e) :
    e = .typeError := by
  cases v <;> simp [pyIter] at h <;> exact h.symm

theorem processEntry_error {acc : ChunkAcc} {entry : Json} {e : LoadError}
    (h : processEntry acc entry = .error e) :
    e = .keyError ∨ e = .typeError := by
  cases entry <;> simp only [processEntry] at h
  case obj kvs =>
    rcases h1 : objGet kvs "file" with e1 | fname
    · rw [h1] at h
      simp only [bind, Except.bind] at h
      cases h
      exact Or.inl (objGet_error h1)
    · rw [h1] at h
      simp only [bind, Except.bind] at h
      rcases h2 : objGet kvs "chunk" with e2 | chunk
      · rw [h2] at h
        cases h
        exact Or.inl (objGet_error h2)
      · rw [h2] at h
        simp only [bind, Except.bind] at h
        by_cases h3 : hashable fname = true
        · rw [if_pos h3] at h
          exact absurd h (by simp)
        · rw [if_neg h3] at h
          cases h
          exact Or.inr rfl
  all_goals
    cases h
    exact Or.inr rfl

theorem foldlM_error {α β : Type} (P : LoadError → Prop)
    (f : β → α → Except LoadError β)
    (hf : ∀ b a e, f b a = .error e → P e) :
    ∀ (l : List α) (b : β) (e : LoadError), l.foldlM f b = .error e → P e
  | [], b, e => by
    intro h
    exact absurd h (by simp [List.foldlM, pure, Except.pure])
  | a :: l, b, e => by
    intro h
    rw [List.foldlM_cons] at h
    rcases h1 : f b a with e1 | b'
    · rw [h1] at h
      simp only [bind, Except.bind] at h
      cases h
      exact hf b a _ h1
    · rw [h1] at h
      simp only [bind, Except.bind] at h
      exact foldlM_error P f hf l b' e h

theorem processCorpus_error {acc : ChunkAcc} {chunks : Json} {e : LoadError}
    (h : processCorpus acc chunks = .error e) : e ≠ .corpusFormatError := by
  cases chunks <;> simp only [processCorpus] at h
  case arr elems =>
    have := foldlM_error (fun e => e = .keyError ∨ e = .typeError)
      processEntry (fun b a e he => processEntry_error he) elems acc e h
    rcases this with rfl | rfl <;> simp
  case obj kvs =>
    have := foldlM_error (fun e => e = .typeError) processKV
      (fun b a e he => by
        unfold processKV at he
        rcases h1 : pyIter a.2 with e1 | items
        · rw [h1] at he
          simp only [bind, Except.bind] at he
          cases he
          exact pyIter_error h1
        · rw [h1] at he
          simp only [bind, Except.bind] at he
          exact absurd he (by simp [pure, Except.pure]))
      kvs acc e h
    rw [this]
    simp
  all_goals
    cases h
    simp

/-- C6 (amended): a corpus of neither recognized shape makes the loader
raise a built-in Python error (AttributeError for a non-list non-dict
root, TypeError or KeyError inside malformed entries), never the
CorpusFormatError named by the specification, which the code does not
define; moreover an object whose values are strings is silently
accepted, each character becoming a chunk. -/
theorem c6_loader_errors :
    (∀ corpora : List Json,
      load_all_chunks corpora ≠ .error .corpusFormatError) ∧
    load_all_chunks [Json.num 3] = .error .attributeError ∧
    load_all_chunks [Json.arr [Json.num 1]] = .error .typeError ∧
    load_all_chunks [Json.arr [Json.obj [("chunk", Json.str "x")]]] =
      .error .keyError ∧
    load_all_chunks [Json.obj [("a", Json.num 3)]] = .error .typeError ∧
    load_all_chunks [Json.obj [("a", Json.str "hi")]] =
      .ok [(Json.str "a", [Json.str "h", Json.str "i"])] := by
  refine ⟨?_, rfl, rfl, rfl, rfl, rfl⟩
  intro corpora h
  exact foldlM_error (fun e => e ≠ .corpusFormatError) processCorpus
    (fun b a e he => processCorpus_error he) corpora [] _ h rfl

/-- C6 is false as stated: a corpus that is a bare JSON string is
neither recognized shape, and the loader fails with AttributeError (at
chunks.items()), not with CorpusFormatError. -/
theorem c6_counterexample :
    load_all_chunks [Json.str "not a corpus"] = .error .attributeError ∧
    LoadError.attributeError ≠ LoadError.corpusFormatError :=
  ⟨rfl, by decide⟩

/-! ### Claim C4: the ordering produced by the ranker's sort -/

theorem string_eq_of_data {s t : String} (h : s.data = t.data) : s = t := by
  cases s
  cases t
  exact congrArg String.mk h

theorem charsLt_irrefl : ∀ l : List Char, charsLt l l = false
  | [] => rfl
  | a :: l => by simp [charsLt, charsLt_irrefl l, lt_irrefl]

theorem charsLt_trichotomy :
    ∀ a b : List Char, charsLt a b = true ∨ a = b ∨ charsLt b a = true
  | [], [] => Or.inr (Or.inl rfl)
  | [], _ :: _ => Or.inl rfl
  | _ :: _, [] => Or.inr (Or.inr rfl)
  | a :: as, b :: bs => by
    rcases lt_trichotomy a b with h | rfl | h
    · exact Or.inl (by simp [charsLt, h])
    · rcases charsLt_trichotomy as bs with h2 | rfl | h2
      · exact Or.inl (by simp [charsLt, h2])
      · exact Or.inr (Or.inl rfl)
      · exact Or.inr (Or.inr (by simp [charsLt, h2]))
    · exact Or.inr (Or.inr (by simp [charsLt, h]))

theorem charsLt_trans :
    ∀ a b c : List Char, charsLt a b = true → charsLt b c = true →
      charsLt a c = true
  | [], [], _, h1, _ => by simp [charsLt] at h1
  | [], _ :: _, [], _, h2 => by simp [charsLt] at h2
  | [], _ :: _, _ :: _, _, _ => rfl
  | _ :: _, [], _, h1, _ => by simp [charsLt] at h1
  | _ :: _, _ :: _, [], _, h2 => by simp [charsLt] at h2
  | a :: as, b :: bs, c :: cs, h1, h2 => by
    simp only [charsLt, Bool.or_eq_true, Bool.and_eq_true,
      decide_eq_true_eq] at h1 h2 ⊢
    rcases h1 with h1 | ⟨rfl, h1⟩
    · rcases h2 with h2 | ⟨rfl, h2⟩
      · exact Or.inl (lt_trans h1 h2)
      · exact Or.inl h1
    · rcases h2 with h2 | ⟨rfl, h2⟩
      · exact Or.inl h2
      · exact Or.inr ⟨rfl, charsLt_trans as bs cs h1 h2⟩

theorem entryLtB_irrefl (a : Entry) : entryLtB a a = false := by
  simp [entryLtB, charsLt_irrefl, lt_irrefl]

theorem entryLtB_trichotomy (a b : Entry) :
    entryLtB a b = true ∨ a = b ∨ entryLtB b a = true := by
  obtain ⟨s1, f1, t1⟩ := a
  obtain ⟨s2, f2, t2⟩ := b
  rcases lt_trichotomy s1 s2 with h | rfl | h
  · exact Or.inl (by simp [entryLtB, h])
  · rcases charsLt_trichotomy f1.data f2.data with h2 | h2 | h2
    · exact Or.inl (by simp [entryLtB, h2])
    · cases string_eq_of_data h2
      rcases charsLt_trichotomy t1.data t2.data with h3 | h3 | h3
      · exact Or.inl (by simp [entryLtB, h3])
      · cases string_eq_of_data h3
        exact Or.inr (Or.inl rfl)
      · exact Or.inr (Or.inr (by simp [entryLtB, h3]))
    · exact Or.inr (Or.inr (by simp [entryLtB, h2]))
  · exact Or.inr (Or.inr (by simp [entryLtB, h]))

theorem entryLtB_trans (a b c : Entry) (h1 : entryLtB a b = true)
    (h2 : entryLtB b c = true) : entryLtB a c = true := by
  obtain ⟨s1, f1, t1⟩ := a
  obtain ⟨s2, f2, t2⟩ := b
  obtain ⟨s3, f3, t3⟩ := c
  simp only [entryLtB, Bool.or_eq_true, Bool.and_eq_true,
    decide_eq_true_eq] at h1 h2 ⊢
  rcases h1 with h1 | ⟨rfl, h1⟩
  · rcases h2 with h2 | ⟨rfl, h2⟩
    · exact Or.inl (lt_trans h1 h2)
    · exact Or.inl h1
  · rcases h2 with h2 | ⟨rfl, h2⟩
    · exact Or.inl h2
    · refine Or.inr ⟨rfl, ?_⟩
      rcases h1 with h1 | ⟨rfl, h1⟩
      · rcases h2 with h2 | ⟨rfl, h2⟩
        · exact Or.inl (charsLt_trans _ _ _ h1 h2)
        · exact Or.inl h1
      · rcases h2 with h2 | ⟨rfl, h2⟩
        · exact Or.inl h2
        · exact Or.inr ⟨rfl, charsLt_trans _ _ _ h1 h2⟩

theorem entryLtB_asymm (a b : Entry) (h : entryLtB a b = true) :
    entryLtB b a = false := by
  cases hx : entryLtB b a
  · rfl
  · have := entryLtB_trans a b a h hx
    rw [entryLtB_irrefl] at this
    cases this

instance : IsTotal Entry entryGe :=
  ⟨fun a b => by
    unfold entryGe
    rcases entryLtB_trichotomy a b with h | rfl | h
    · exact Or.inr (entryLtB_asymm a b h)
    · exact Or.inl (entryLtB_irrefl a)
    · exact Or.inl (entryLtB_asymm b a h)⟩

instance : IsTrans Entry entryGe :=
  ⟨fun a b c hab hbc => by
    unfold entryGe at *
    rcases entryLtB_trichotomy a c with h | rfl | h
    · rcases entryLtB_trichotomy a b with h1 | rfl | h1
      · rw [h1] at hab
        cases hab
      · rw [hbc] at h
        cases h
      · rcases entryLtB_trichotomy b c with h2 | rfl | h2
        · rw [h2] at hbc
          cases hbc
        · rw [hab] at h
          cases h
        · have h3 := entryLtB_trans c b a h2 h1
          rw [entryLtB_asymm a c h] at h3
          cases h3
    · exact entryLtB_irrefl a
    · exact entryLtB_asymm c a h⟩

/-- Every entry the ranker scores is positive and carries the score of
its own text. -/
theorem scoredChunks_mem {q : String} {chunks : ChunkIndex} {e : Entry}
    (he : e ∈ scoredChunks q chunks) :
    0 < e.1 ∧ e.1 = scoreChunk q e.2.2 := by
  unfold scoredChunks at he
  rcases List.mem_flatMap.1 he with ⟨fc, hfc, he2⟩
  rcases List.mem_filterMap.1 he2 with ⟨c, hc, he3⟩
  by_cases h : 0 < scoreChunk q c
  · rw [if_pos h] at he3
    cases Option.some.inj he3
    exact ⟨h, rfl⟩
  · rw [if_neg h] at he3
    cases he3

/-- C4 (amended): the ranker returns the first top_k of the
positive-scoring entries sorted descending by the whole tuple
(score, source, text) — ties between equal scores are broken by the
descending source and text comparison of Python's tuple sort, not by
corpus iteration order. -/
theorem c4_ranking_order (query : String) (chunks : ChunkIndex) (top_k : Nat) :
    find_relevant_chunks query chunks top_k =
      ((rankedEntries query chunks).take top_k).map (fun e => (e.2.1, e.2.2)) ∧
    (rankedEntries query chunks).Sorted entryGe ∧
    (rankedEntries query chunks).Perm (scoredChunks query chunks) ∧
    ∀ e ∈ scoredChunks query chunks, 0 < e.1 ∧ e.1 = scoreChunk query e.2.2 :=
  ⟨rfl, List.sorted_insertionSort _ _, List.perm_insertionSort _ _,
    fun _ he => scoredChunks_mem he⟩

theorem c4_scoreA : scoreChunk "cat" "apple cat" = 9 / 200 := by
  unfold scoreChunk lengthFactor
  rw [show rawScore "cat" "apple cat" = 1 from by decide,
    show "apple cat".length = 9 from rfl]
  push_cast
  rw [min_eq_right (by norm_num : (9 : ℚ) / 200 ≤ 1)]
  norm_num

theorem c4_scoreZ : scoreChunk "cat" "zebra cat" = 9 / 200 := by
  unfold scoreChunk lengthFactor
  rw [show rawScore "cat" "zebra cat" = 1 from by decide,
    show "zebra cat".length = 9 from rfl]
  push_cast
  rw [min_eq_right (by norm_num : (9 : ℚ) / 200 ≤ 1)]
  norm_num

/-- C4 is false as stated: two chunks from the same source with equal
scores are returned in reverse corpus order, because the tie is broken
by the descending comparison of the chunk texts. -/
theorem c4_counterexample :
    scoreChunk "cat" "apple cat" = scoreChunk "cat" "zebra cat" ∧
    find_relevant_chunks "cat" [("doc", ["apple cat", "zebra cat"])] 2 =
      [("doc", "zebra cat"), ("doc", "apple cat")] := by
  have hA := c4_scoreA
  have hZ := c4_scoreZ
  refine ⟨hA.trans hZ.symm, ?_⟩
  have hsc : scoredChunks "cat" [("doc", ["apple cat", "zebra cat"])] =
      [(9 / 200, "doc", "apple cat"), (9 / 200, "doc", "zebra cat")] := by
    unfold scoredChunks
    simp only [List.flatMap_cons, List.flatMap_nil, List.filterMap_cons,
      List.filterMap_nil, hA, hZ, List.append_nil]
    norm_num
  have hlt : entryLtB (9 / 200, "doc", "apple cat")
      (9 / 200, "doc", "zebra cat") = true := by
    unfold entryLtB
    rw [decide_eq_false (by norm_num : ¬((9 : ℚ) / 200 < 9 / 200)),
      decide_eq_true (rfl : (9 : ℚ) / 200 = 9 / 200),
      show charsLt "doc".data "doc".data = false from by decide,
      decide_eq_true (rfl : "doc" = "doc"),
      show charsLt "apple cat".data "zebra cat".data = true from by decide]
    rfl
  unfold find_relevant_chunks rankedEntries
  rw [hsc]
  show (((List.orderedInsert entryGe (9 / 200, "doc", "apple cat")
      (List.orderedInsert entryGe (9 / 200, "doc", "zebra cat") [])).take 2).map
      fun e => (e.2.1, e.2.2)) = _
  rw [List.orderedInsert_nil]
  show (((if entryGe (9 / 200, "doc", "apple cat") (9 / 200, "doc", "zebra cat")
      then _ else _ : List Entry).take 2).map fun e => (e.2.1, e.2.2)) = _
  rw [if_neg (by unfold entryGe; rw [hlt]; simp)]
  rw [List.orderedInsert_nil]
  rfl

/-! ### Claim C7: monotonicity of re-ranking after appending the query

Appending the query text directly can merge word tokens at the junction
and lower the score (see the counterexample), so the amended claim
appends with a separating space.  The lemmas below show every score
component is monotone under that append. -/

theorem prefixB_append (n h h2 : List Char) (hp : prefixB n h = true) :
    prefixB n (h ++ h2) = true := by
  induction n generalizing h with
  | nil => rfl
  | cons a as ih =>
    cases h with
    | nil => simp [prefixB] at hp
    | cons b t =>
      simp only [List.cons_append, prefixB, Bool.and_eq_true,
        decide_eq_true_eq] at hp ⊢
      exact ⟨hp.1, ih t hp.2⟩

theorem infixB_nil_left (h : List Char) : infixB [] h = true := by
  cases h <;> simp [infixB, prefixB]

theorem infixB_append (n h h2 : List Char) (hi : infixB n h = true) :
    infixB n (h ++ h2) = true := by
  induction h with
  | nil =>
    have hn : n = [] := by simpa [infixB, List.isEmpty_iff] using hi
    subst hn
    exact infixB_nil_left h2
  | cons c t ih =>
    simp only [infixB, Bool.or_eq_true] at hi
    rcases hi with hp | hi
    · simp only [List.cons_append, infixB, Bool.or_eq_true]
      exact Or.inl (prefixB_append _ _ _ hp)
    · simp only [List.cons_append, infixB, Bool.or_eq_true]
      exact Or.inr (ih hi)

theorem tokensAux_append_sep {sep : Char} (hsep : ¬ isWordChar sep = true) :
    ∀ (a b acc : List Char),
      tokensAux (a ++ sep :: b) acc = tokensAux (a ++ [sep]) acc ++ tokensAux b []
  | [], b, acc => by
    simp only [List.nil_append, tokensAux]
    rw [if_neg hsep, if_neg hsep]
    by_cases hacc : acc.isEmpty = true
    · rw [if_pos hacc, if_pos hacc]
      simp [tokensAux]
    · rw [if_neg hacc, if_neg hacc]
      simp [tokensAux]
  | c :: a, b, acc => by
    simp only [List.cons_append, tokensAux]
    by_cases hc : isWordChar c = true
    · rw [if_pos hc, if_pos hc]
      exact tokensAux_append_sep hsep a b (c :: acc)
    · rw [if_neg hc, if_neg hc]
      by_cases hacc : acc.isEmpty = true
      · rw [if_pos hacc, if_pos hacc]
        exact tokensAux_append_sep hsep a b []
      · rw [if_neg hacc, if_neg hacc]
        exact congrArg (fun x => acc.reverse :: x) (tokensAux_append_sep hsep a b [])

theorem tokensAux_append_sep_end {sep : Char} (hsep : ¬ isWordChar sep = true) :
    ∀ (a acc : List Char), tokensAux (a ++ [sep]) acc = tokensAux a acc
  | [], acc => by
    simp only [List.nil_append, tokensAux]
    rw [if_neg hsep]
    by_cases hacc : acc.isEmpty = true
    · rw [if_pos hacc, if_pos hacc]
      rfl
    · rw [if_neg hacc, if_neg hacc]
      rfl
  | c :: a, acc => by
    simp only [List.cons_append, tokensAux]
    by_cases hc : isWordChar c = true
    · rw [if_pos hc, if_pos hc]
      exact tokensAux_append_sep_end hsep a (c :: acc)
    · rw [if_neg hc, if_neg hc]
      by_cases hacc : acc.isEmpty = true
      · rw [if_pos hacc, if_pos hacc]
        exact tokensAux_append_sep_end hsep a []
      · rw [if_neg hacc, if_neg hacc]
        exact congrArg (fun x => acc.reverse :: x) (tokensAux_append_sep_end hsep a [])

theorem tokens_append_sep {sep : Char} (hsep : ¬ isWordChar sep = true)
    (a b : List Char) : tokens (a ++ sep :: b) = tokens a ++ tokens b := by
  unfold tokens
  rw [tokensAux_append_sep hsep a b [], tokensAux_append_sep_end hsep a []]

theorem lower_append_space (t q2 : String) :
    lowerChars (t ++ " " ++ q2).data =
      lowerChars t.data ++ ' ' :: lowerChars q2.data := by
  unfold lowerChars
  rw [String.data_append, String.data_append, List.map_append, List.map_append,
    show List.map Char.toLower " ".data = [' '] from by decide, List.append_assoc]
  rfl

theorem wordOverlapN_mono (q t : String) :
    wordOverlapN q t ≤ wordOverlapN q (t ++ " " ++ q) := by
  unfold wordOverlapN
  refine List.countP_mono_left fun w _ hp => ?_
  rw [lower_append_space, tokens_append_sep (by decide)]
  simp only [decide_eq_true_eq, List.mem_append] at hp ⊢
  exact Or.inl hp

theorem phraseBonusN_mono (q t : String) :
    phraseBonusN q t ≤ phraseBonusN q (t ++ " " ++ q) := by
  unfold phraseBonusN
  refine Nat.mul_le_mul_left 5 (List.countP_mono_left fun term _ hp => ?_)
  rw [lower_append_space]
  exact infixB_append _ _ _ hp

theorem conceptBonusN_mono (q t : String) :
    conceptBonusN q t ≤ conceptBonusN q (t ++ " " ++ q) := by
  unfold conceptBonusN
  refine Nat.mul_le_mul_left 2 (List.countP_mono_left fun c _ hp => ?_)
  rw [lower_append_space]
  simp only [Bool.and_eq_true] at hp ⊢
  exact ⟨hp.1, infixB_append _ _ _ hp.2⟩

theorem rawScore_mono (q t : String) :
    rawScore q t ≤ rawScore q (t ++ " " ++ q) := by
  unfold rawScore
  have h1 := wordOverlapN_mono q t
  have h2 := phraseBonusN_mono q t
  have h3 := conceptBonusN_mono q t
  omega

theorem lengthFactor_nonneg (c : String) : 0 ≤ lengthFactor c := by
  unfold lengthFactor
  exact le_min (by norm_num) (by positivity)

theorem lengthFactor_mono {c1 c2 : String} (h : c1.length ≤ c2.length) :
    lengthFactor c1 ≤ lengthFactor c2 := by
  unfold lengthFactor
  have hc : (c1.length : ℚ) ≤ (c2.length : ℚ) := by exact_mod_cast h
  exact min_le_min le_rfl (by gcongr)

theorem scoreChunk_mono (q t : String) :
    scoreChunk q t ≤ scoreChunk q (t ++ " " ++ q) := by
  unfold scoreChunk
  refine mul_le_mul ?_ ?_ (lengthFactor_nonneg t) (by positivity)
  · exact_mod_cast rawScore_mono q t
  · refine lengthFactor_mono ?_
    rw [String.length_append, String.length_append]
    omega

theorem charsLt_append_ne : ∀ (l m : List Char), m ≠ [] → charsLt l (l ++ m) = true
  | [], m, hm => by
    cases m with
    | nil => exact absurd rfl hm
    | cons c t => rfl
  | a :: l, m, hm => by
    simp only [List.cons_append, charsLt, Bool.or_eq_true, Bool.and_eq_true,
      decide_eq_true_eq]
    exact Or.inr ⟨by trivial, charsLt_append_ne l m hm⟩

/-- The modified entry's sort key is strictly above the original's. -/
theorem entryLtB_key {s s2 : ℚ} (f t t2 : String) (hs : s ≤ s2)
    (ht : charsLt t.data t2.data = true) :
    entryLtB (s, f, t) (s2, f, t2) = true := by
  rcases lt_or_eq_of_le hs with h | rfl
  · simp [entryLtB, h]
  · unfold entryLtB
    rw [decide_eq_false (lt_irrefl s), decide_eq_true (rfl : s = s),
      charsLt_irrefl, decide_eq_true (rfl : f = f), ht]
    rfl

theorem idx_cons_self {α : Type} [DecidableEq α] (e : α) (l : List α) :
    idx e (e :: l) = 0 := by
  simp [idx]

theorem idx_cons_ne {α : Type} [DecidableEq α] {a e : α} (l : List α)
    (h : a ≠ e) : idx e (a :: l) = idx e l + 1 := by
  simp [idx, h]

theorem idx_lt_length {α : Type} [DecidableEq α] (e : α) :
    ∀ l : List α, e ∈ l → idx e l < l.length
  | [], he => absurd he (by simp)
  | a :: l, he => by
    by_cases hd : a = e
    · subst hd
      simp [idx]
    · rcases List.mem_cons.1 he with rfl | he2
      · exact absurd rfl hd
      · rw [idx_cons_ne l hd, List.length_cons]
        exact Nat.succ_lt_succ (idx_lt_length e l he2)

/-- In a descending-sorted entry list the index of the first
occurrence of an element is the number of strictly greater entries:
entries comparing equal under the tuple order are equal outright, so
duplicates sit together right at that position. -/
theorem idx_sorted_eq_countP :
    ∀ (l : List Entry), l.Sorted entryGe → ∀ e ∈ l,
      idx e l = l.countP (fun d => entryLtB e d)
  | [], _, e, he => absurd he (List.not_mem_nil e)
  | a :: l, hs, e, he => by
    by_cases hae : a = e
    · rw [hae, idx_cons_self]
      have h0 : ∀ d ∈ l, entryLtB e d = false := fun d hd => by
        rw [← hae]
        exact List.rel_of_sorted_cons hs d hd
      have hz : l.countP (fun d => entryLtB e d) = 0 :=
        List.countP_eq_zero.2 fun d hd => by simp [h0 d hd]
      rw [List.countP_cons, hz, entryLtB_irrefl]
      simp
    · have he2 : e ∈ l := by
        rcases List.mem_cons.1 he with rfl | h2
        · exact absurd rfl hae
        · exact h2
      rw [idx_cons_ne l hae, List.countP_cons]
      have hgt : entryLtB e a = true := by
        have hge : entryLtB a e = false := List.rel_of_sorted_cons hs e he2
        rcases entryLtB_trichotomy e a with h | rfl | h
        · exact h
        · exact absurd rfl hae
        · rw [h] at hge
          cases hge
      rw [hgt, idx_sorted_eq_countP l hs.of_cons e he2]
      simp

/-- The index of the projection of an entry under the (source, text)
projection equals its index among the entries, provided the projection
is injective on the list. -/
theorem idx_map_proj (e : Entry) :
    ∀ l : List Entry, (∀ d ∈ l, (d.2.1, d.2.2) = (e.2.1, e.2.2) → d = e) →
      idx (e.2.1, e.2.2) (l.map fun d => (d.2.1, d.2.2)) = idx e l
  | [], _ => rfl
  | d :: l, hinj => by
    by_cases hd : d = e
    · subst hd
      rw [List.map_cons, idx_cons_self, idx_cons_self]
    · have hne : (d.2.1, d.2.2) ≠ (e.2.1, e.2.2) := fun hp => hd (hinj d (by simp) hp)
      rw [List.map_cons, idx_cons_ne _ hne, idx_cons_ne _ hd,
        idx_map_proj e l fun d2 hd2 hp => hinj d2 (by simp [hd2]) hp]

theorem idx_take_of_mem {α : Type} [DecidableEq α] (e : α) :
    ∀ (l : List α) (k : Nat), e ∈ l.take k → idx e (l.take k) = idx e l
  | l, 0, he => absurd he (by simp)
  | [], _ + 1, he => absurd he (by simp)
  | a :: l, k + 1, he => by
    rw [List.take_succ_cons] at he ⊢
    by_cases hd : a = e
    · subst hd
      rw [idx_cons_self, idx_cons_self]
    · rcases List.mem_cons.1 he with rfl | he2
      · exact absurd rfl hd
      · rw [idx_cons_ne _ hd, idx_cons_ne _ hd, idx_take_of_mem e l k he2]

theorem mem_take_of_idx_lt {α : Type} [DecidableEq α] (e : α) :
    ∀ (l : List α) (k : Nat), e ∈ l → idx e l < k → e ∈ l.take k
  | [], _, he, _ => absurd he (by simp)
  | a :: l, k, he, hlt => by
    by_cases hd : a = e
    · subst hd
      rw [idx_cons_self] at hlt
      cases k with
      | zero => omega
      | succ k =>
        rw [List.take_succ_cons]
        exact List.mem_cons_self _ _
    · rcases List.mem_cons.1 he with rfl | he2
      · exact absurd rfl hd
      · rw [idx_cons_ne _ hd] at hlt
        cases k with
        | zero => omega
        | succ k =>
          rw [List.take_succ_cons]
          exact List.mem_cons_of_mem _
            (mem_take_of_idx_lt e l k he2 (by omega))

/-- Decomposition of the scored entries around one designated chunk
with positive score. -/
theorem scored_decomp (q f t : String) (pre post : List (String × List String))
    (cl1 cl2 : List String) (hpos : 0 < scoreChunk q t) :
    scoredChunks q (pre ++ (f, cl1 ++ t :: cl2) :: post) =
      (scoredChunks q pre ++ cl1.filterMap (fun c =>
          if 0 < scoreChunk q c then some (scoreChunk q c, f, c) else none)) ++
        (scoreChunk q t, f, t) ::
          (cl2.filterMap (fun c =>
            if 0 < scoreChunk q c then some (scoreChunk q c, f, c) else none) ++
          scoredChunks q post) := by
  unfold scoredChunks
  rw [List.flatMap_append, List.flatMap_cons]
  simp only [List.filterMap_append, List.filterMap_cons, if_pos hpos]
  simp [List.append_assoc]

/-- Core of the monotonicity argument: replacing one entry of the
scored list by an entry with a strictly greater sort key cannot push it
down the sorted order. -/
theorem rank_core (A B : List Entry) (e e2 : Entry) (k : Nat)
    (hkey : entryLtB e e2 = true)
    (hmem : e ∈ (List.insertionSort entryGe (A ++ e :: B)).take k) :
    idx e2 (List.insertionSort entryGe (A ++ e2 :: B)) ≤
      idx e (List.insertionSort entryGe (A ++ e :: B)) ∧
    e2 ∈ (List.insertionSort entryGe (A ++ e2 :: B)).take k := by
  have hperm := List.perm_insertionSort entryGe (A ++ e :: B)
  have hperm2 := List.perm_insertionSort entryGe (A ++ e2 :: B)
  have hsorted := List.sorted_insertionSort entryGe (A ++ e :: B)
  have hsorted2 := List.sorted_insertionSort entryGe (A ++ e2 :: B)
  have heS : e ∈ List.insertionSort entryGe (A ++ e :: B) :=
    List.mem_of_mem_take hmem
  have heS2 : e2 ∈ List.insertionSort entryGe (A ++ e2 :: B) :=
    hperm2.mem_iff.2 (by simp)
  have hidxe : idx e (List.insertionSort entryGe (A ++ e :: B)) =
      (A ++ e :: B).countP (fun d => entryLtB e d) := by
    rw [idx_sorted_eq_countP _ hsorted e heS]
    exact List.Perm.countP_eq _ hperm
  have hidxe2 : idx e2 (List.insertionSort entryGe (A ++ e2 :: B)) =
      (A ++ e2 :: B).countP (fun d => entryLtB e2 d) := by
    rw [idx_sorted_eq_countP _ hsorted2 e2 heS2]
    exact List.Perm.countP_eq _ hperm2
  have hcount : (A ++ e2 :: B).countP (fun d => entryLtB e2 d) ≤
      (A ++ e :: B).countP (fun d => entryLtB e d) := by
    rw [List.countP_append, List.countP_append, List.countP_cons,
      List.countP_cons]
    have hA : A.countP (fun d => entryLtB e2 d) ≤
        A.countP (fun d => entryLtB e d) :=
      List.countP_mono_left fun d _ hd => entryLtB_trans e e2 d hkey hd
    have hB : B.countP (fun d => entryLtB e2 d) ≤
        B.countP (fun d => entryLtB e d) :=
      List.countP_mono_left fun d _ hd => entryLtB_trans e e2 d hkey hd
    rw [entryLtB_irrefl, entryLtB_irrefl]
    simp only [Bool.false_eq_true, if_false]
    omega
  have hle : idx e2 (List.insertionSort entryGe (A ++ e2 :: B)) ≤
      idx e (List.insertionSort entryGe (A ++ e :: B)) := by
    rw [hidxe, hidxe2]
    exact hcount
  have hklt : idx e (List.insertionSort entryGe (A ++ e :: B)) < k := by
    have h1 := idx_lt_length e
      ((List.insertionSort entryGe (A ++ e :: B)).take k) hmem
    have h2 : ((List.insertionSort entryGe (A ++ e :: B)).take k).length ≤ k := by
      rw [List.length_take]
      exact min_le_left _ _
    rw [← idx_take_of_mem e _ k hmem]
    omega
  exact ⟨hle, mem_take_of_idx_lt e2 _ k heS2 (by omega)⟩

/-- C7 (amended): take a corpus containing a designated chunk with text
t under source f, ranked at position r for query q; replace that chunk
by t followed by a separating space and the exact query text, and
re-rank: the modified chunk appears at some position at or above r,
where position means the first occurrence, exactly as with duplicated
chunks in the undeduplicated corpus.  (With no separator the claim
fails: concatenation can merge word tokens at the junction and destroy
the overlap; see the counterexample.) -/
theorem c7_requery_rank_monotone
    (q t f : String) (pre post : List (String × List String))
    (cl1 cl2 : List String) (k r : Nat) (chunks chunks2 : ChunkIndex)
    (hc : chunks = pre ++ (f, cl1 ++ t :: cl2) :: post)
    (hc2 : chunks2 = pre ++ (f, cl1 ++ (t ++ " " ++ q) :: cl2) :: post)
    (hmem : (f, t) ∈ find_relevant_chunks q chunks k)
    (hidx : idx (f, t) (find_relevant_chunks q chunks k) = r) :
    ∃ r2 ≤ r, (f, t ++ " " ++ q) ∈ find_relevant_chunks q chunks2 k ∧
      idx (f, t ++ " " ++ q) (find_relevant_chunks q chunks2 k) = r2 := by
  subst hc hc2
  have hperm := List.perm_insertionSort entryGe
    (scoredChunks q (pre ++ (f, cl1 ++ t :: cl2) :: post))
  have hperm2 := List.perm_insertionSort entryGe
    (scoredChunks q (pre ++ (f, cl1 ++ (t ++ " " ++ q) :: cl2) :: post))
  -- the designated entry is the one behind the projection (f, t)
  rcases List.mem_map.1 hmem with ⟨en, hen_take, hen_proj⟩
  have hen_S := List.mem_of_mem_take hen_take
  have hen_scored := hperm.mem_iff.1 hen_S
  obtain ⟨hpos_en, hsc_en⟩ := scoredChunks_mem hen_scored
  have hen_eq : en = (scoreChunk q t, f, t) := by
    have h1 : (en.2.1, en.2.2) = (f, t) := hen_proj
    have hf : en.2.1 = f := congrArg Prod.fst h1
    have ht : en.2.2 = t := congrArg Prod.snd h1
    have hs : en.1 = scoreChunk q t := by rw [hsc_en, ht]
    calc en = (en.1, en.2.1, en.2.2) := rfl
      _ = (scoreChunk q t, f, t) := by rw [hf, ht, hs]
  rw [hen_eq] at hen_take
  have hpos : 0 < scoreChunk q t := by
    rw [hen_eq] at hpos_en
    exact hpos_en
  have hpos2 : 0 < scoreChunk q (t ++ " " ++ q) :=
    lt_of_lt_of_le hpos (scoreChunk_mono q t)
  have hdec := scored_decomp q f t pre post cl1 cl2 hpos
  have hdec2 := scored_decomp q f (t ++ " " ++ q) pre post cl1 cl2 hpos2
  have hkey : entryLtB (scoreChunk q t, f, t)
      (scoreChunk q (t ++ " " ++ q), f, t ++ " " ++ q) = true := by
    refine entryLtB_key f t (t ++ " " ++ q) (scoreChunk_mono q t) ?_
    rw [String.data_append, String.data_append, List.append_assoc]
    exact charsLt_append_ne t.data _ (by simp)
  -- injectivity of the projection on both scored lists
  have hinj : ∀ d ∈ List.insertionSort entryGe
      (scoredChunks q (pre ++ (f, cl1 ++ t :: cl2) :: post)),
      (d.2.1, d.2.2) = (f, t) → d = (scoreChunk q t, f, t) := by
    intro d hd hp
    obtain ⟨-, hdsc⟩ := scoredChunks_mem (hperm.mem_iff.1 hd)
    have hf : d.2.1 = f := congrArg Prod.fst hp
    have ht : d.2.2 = t := congrArg Prod.snd hp
    have hs : d.1 = scoreChunk q t := by rw [hdsc, ht]
    calc d = (d.1, d.2.1, d.2.2) := rfl
      _ = (scoreChunk q t, f, t) := by rw [hf, ht, hs]
  have hinj2 : ∀ d ∈ List.insertionSort entryGe
      (scoredChunks q (pre ++ (f, cl1 ++ (t ++ " " ++ q) :: cl2) :: post)),
      (d.2.1, d.2.2) = (f, t ++ " " ++ q) →
      d = (scoreChunk q (t ++ " " ++ q), f, t ++ " " ++ q) := by
    intro d hd hp
    obtain ⟨-, hdsc⟩ := scoredChunks_mem (hperm2.mem_iff.1 hd)
    have hf : d.2.1 = f := congrArg Prod.fst hp
    have ht : d.2.2 = t ++ " " ++ q := congrArg Prod.snd hp
    have hs : d.1 = scoreChunk q (t ++ " " ++ q) := by rw [hdsc, ht]
    calc d = (d.1, d.2.1, d.2.2) := rfl
      _ = (scoreChunk q (t ++ " " ++ q), f, t ++ " " ++ q) := by rw [hf, ht, hs]
  -- the core bound, transported through the decompositions
  have hcore := rank_core
    (scoredChunks q pre ++ cl1.filterMap (fun c =>
      if 0 < scoreChunk q c then some (scoreChunk q c, f, c) else none))
    (cl2.filterMap (fun c =>
      if 0 < scoreChunk q c then some (scoreChunk q c, f, c) else none) ++
      scoredChunks q post)
    (scoreChunk q t, f, t)
    (scoreChunk q (t ++ " " ++ q), f, t ++ " " ++ q) k hkey
    (by rw [← hdec]; exact hen_take)
  rw [← hdec, ← hdec2] at hcore
  obtain ⟨hle, hmem2⟩ := hcore
  -- translate ranks through the projection
  have hr : idx ((f : String), t) (find_relevant_chunks q
      (pre ++ (f, cl1 ++ t :: cl2) :: post) k) =
      idx (scoreChunk q t, f, t) (List.insertionSort entryGe
        (scoredChunks q (pre ++ (f, cl1 ++ t :: cl2) :: post))) := by
    unfold find_relevant_chunks rankedEntries
    rw [show ((f : String), t) =
      (((scoreChunk q t, f, t) : Entry).2.1, ((scoreChunk q t, f, t) : Entry).2.2)
      from rfl]
    rw [idx_map_proj _ _ fun d hd hp => hinj d (List.mem_of_mem_take hd) hp]
    exact idx_take_of_mem _ _ k hen_take
  refine ⟨idx (scoreChunk q (t ++ " " ++ q), f, t ++ " " ++ q)
    (List.insertionSort entryGe (scoredChunks q
      (pre ++ (f, cl1 ++ (t ++ " " ++ q) :: cl2) :: post))), ?_, ?_, ?_⟩
  · rw [← hidx, hr]
    exact hle
  · unfold find_relevant_chunks rankedEntries
    exact List.mem_map.2 ⟨_, hmem2, rfl⟩
  · unfold find_relevant_chunks rankedEntries
    rw [show ((f : String), t ++ " " ++ q) =
      (((scoreChunk q (t ++ " " ++ q), f, t ++ " " ++ q) : Entry).2.1,
        ((scoreChunk q (t ++ " " ++ q), f, t ++ " " ++ q) : Entry).2.2)
      from rfl]
    rw [idx_map_proj _ _ fun d hd hp => hinj2 d (List.mem_of_mem_take hd) hp]
    exact idx_take_of_mem _ _ k hmem2

theorem c7_score_catdog : scoreChunk "cat" "cat dog" = 7 / 200 := by
  unfold scoreChunk lengthFactor
  rw [show rawScore "cat" "cat dog" = 1 from by decide,
    show ("cat dog").length = 7 from rfl]
  push_cast
  rw [min_eq_right (by norm_num : (7 : ℚ) / 200 ≤ 1)]
  norm_num

theorem c7_score_catdogcat : scoreChunk "cat" "cat dog cat" = 11 / 200 := by
  unfold scoreChunk lengthFactor
  rw [show rawScore "cat" "cat dog cat" = 1 from by decide,
    show ("cat dog cat").length = 11 from rfl]
  push_cast
  rw [min_eq_right (by norm_num : (11 : ℚ) / 200 ≤ 1)]
  norm_num

theorem c7_scored_catdog :
    scoredChunks "cat" [("doc", ["cat dog"])] = [(7 / 200, "doc", "cat dog")] := by
  unfold scoredChunks
  simp only [List.flatMap_cons, List.flatMap_nil, List.filterMap_cons,
    List.filterMap_nil, c7_score_catdog, List.append_nil]
  rw [if_pos (by norm_num : (0 : ℚ) < 7 / 200)]

theorem c7_scored_catdogcat :
    scoredChunks "cat" [("doc", ["cat dog cat"])] =
      [(11 / 200, "doc", "cat dog cat")] := by
  unfold scoredChunks
  simp only [List.flatMap_cons, List.flatMap_nil, List.filterMap_cons,
    List.filterMap_nil, c7_score_catdogcat, List.append_nil]
  rw [if_pos (by norm_num : (0 : ℚ) < 11 / 200)]

theorem c7_find_catdog :
    find_relevant_chunks "cat" [("doc", ["cat dog"])] 3 = [("doc", "cat dog")] := by
  unfold find_relevant_chunks rankedEntries
  rw [c7_scored_catdog]
  rfl

/-- Witness for c7_requery_rank_monotone: a one-chunk corpus whose
chunk, re-written with the query appended after a space, stays at rank
zero. -/
theorem c7_requery_rank_monotone_witness :
    (("doc", "cat dog") ∈ find_relevant_chunks "cat" [("doc", ["cat dog"])] 3 ∧
      idx ("doc", "cat dog") (find_relevant_chunks "cat" [("doc", ["cat dog"])] 3) = 0) ∧
    (∃ r2 ≤ 0, ("doc", "cat dog" ++ " " ++ "cat") ∈
        find_relevant_chunks "cat" [("doc", ["cat dog cat"])] 3 ∧
      idx ("doc", "cat dog" ++ " " ++ "cat")
        (find_relevant_chunks "cat" [("doc", ["cat dog cat"])] 3) = r2) := by
  have hmem : ("doc", "cat dog") ∈
      find_relevant_chunks "cat" [("doc", ["cat dog"])] 3 := by
    rw [c7_find_catdog]
    simp
  have hidx : idx ("doc", "cat dog")
      (find_relevant_chunks "cat" [("doc", ["cat dog"])] 3) = 0 := by
    rw [c7_find_catdog]
    rfl
  exact ⟨⟨hmem, hidx⟩,
    c7_requery_rank_monotone "cat" "cat dog" "doc" [] [] [] [] 3 0
      [("doc", ["cat dog"])] [("doc", ["cat dog cat"])] rfl (by rfl)
      hmem hidx⟩

/-- C7 is false as stated (appending the query text directly, with no
separator): the chunk cat is ranked first for the query cat, but after
appending the query text the chunk reads catcat, its only token no
longer matches, its score drops to zero, and it vanishes from the
ranking entirely. -/
theorem c7_counterexample :
    find_relevant_chunks "cat" [("doc", ["cat"])] 3 = [("doc", "cat")] ∧
    "cat" ++ "cat" = "catcat" ∧
    find_relevant_chunks "cat" [("doc", ["catcat"])] 3 = [] ∧
    ("doc", "catcat") ∉ find_relevant_chunks "cat" [("doc", ["catcat"])] 3 := by
  have h1 : scoreChunk "cat" "cat" = 3 / 200 := by
    unfold scoreChunk lengthFactor
    rw [show rawScore "cat" "cat" = 1 from by decide,
      show ("cat").length = 3 from rfl]
    push_cast
    rw [min_eq_right (by norm_num : (3 : ℚ) / 200 ≤ 1)]
    norm_num
  have h2 : scoreChunk "cat" "catcat" = 0 := by
    unfold scoreChunk
    rw [show rawScore "cat" "catcat" = 0 from by decide]
    norm_num
  have hfind2 : find_relevant_chunks "cat" [("doc", ["catcat"])] 3 = [] := by
    unfold find_relevant_chunks rankedEntries scoredChunks
    simp only [List.flatMap_cons, List.flatMap_nil, List.filterMap_cons,
      List.filterMap_nil, h2, List.append_nil]
    rw [if_neg (by norm_num : ¬((0 : ℚ) < 0))]
    rfl
  refine ⟨?_, rfl, hfind2, ?_⟩
  · unfold find_relevant_chunks rankedEntries scoredChunks
    simp only [List.flatMap_cons, List.flatMap_nil, List.filterMap_cons,
      List.filterMap_nil, h1, List.append_nil]
    rw [if_pos (by norm_num : (0 : ℚ) < 3 / 200)]
    rfl
  · rw [hfind2]
    simp

end NeuroAI
